import Mathlib

/-!
Verification of the mementor ingestion/retrieval engine (fenv-org/mementor).

Rust strings (`&str`, `String`) are modelled as `List Char` of Unicode scalar
values, exactly the values Rust `char` ranges over.  Byte lengths are recovered
through the UTF-8 encoding where the source compares byte lengths.  Stateful
database code is modelled by explicit state passing over a `Db` record whose
tables mirror `db/schema.rs`.  Floating-point distances are abstracted to an
ordered field (`ℚ`) where only comparisons matter.
-/

set_option maxHeartbeats 1600000

namespace Mementor

abbrev Str := List Char

/-- UTF-8 byte length of one character (Rust `char::len_utf8`). -/
def utf8Len (c : Char) : Nat :=
  if c.toNat < 0x80 then 1
  else if c.toNat < 0x800 then 2
  else if c.toNat < 0x10000 then 3
  else 4

/-- Byte length of a string (Rust `str::len`). -/
def byteLen (s : Str) : Nat := (s.map utf8Len).sum

/-- Unicode `White_Space` code points: the set recognized by Rust
`char::is_whitespace`, hence by `str::trim` and `str::split_whitespace`. -/
def isRustWs (c : Char) : Bool :=
  (0x9 ≤ c.toNat && c.toNat ≤ 0xD) || c.toNat == 0x20 || c.toNat == 0x85 ||
  c.toNat == 0xA0 || c.toNat == 0x1680 ||
  (0x2000 ≤ c.toNat && c.toNat ≤ 0x200A) || c.toNat == 0x2028 ||
  c.toNat == 0x2029 || c.toNat == 0x202F || c.toNat == 0x205F || c.toNat == 0x3000

/-- The scan behind `words`: `acc` holds the characters of the current
non-whitespace run in reverse; a whitespace character (or the end) flushes a
non-empty run. -/
def wordsAux : Str → Str → List Str
  | [], acc => if acc.isEmpty then [] else [acc.reverse]
  | c :: cs, acc =>
    if isRustWs c then
      if acc.isEmpty then wordsAux cs [] else acc.reverse :: wordsAux cs []
    else wordsAux cs (c :: acc)

/-- Rust `str::split_whitespace`: the maximal runs of non-whitespace
characters, in order. -/
def words (s : Str) : List Str := wordsAux s []

/-- Rust `str::trim` (strips Unicode whitespace on both ends). -/
def trim (s : Str) : Str :=
  ((s.dropWhile isRustWs).reverse.dropWhile isRustWs).reverse

/-! ### `pipeline/query.rs` -/

/-- `MIN_QUERY_UNITS` from `config.rs`. -/
def MIN_QUERY_UNITS : Nat := 3

/-- `is_logographic` from `pipeline/query.rs`: CJK ideographs, hiragana,
full- and half-width katakana; Hangul deliberately excluded. -/
def is_logographic (c : Char) : Bool :=
  (0x3040 ≤ c.toNat && c.toNat ≤ 0x309F) ||
  (0x30A0 ≤ c.toNat && c.toNat ≤ 0x30FF) ||
  (0x3400 ≤ c.toNat && c.toNat ≤ 0x4DBF) ||
  (0x4E00 ≤ c.toNat && c.toNat ≤ 0x9FFF) ||
  (0xF900 ≤ c.toNat && c.toNat ≤ 0xFAFF) ||
  (0xFF65 ≤ c.toNat && c.toNat ≤ 0xFF9F)

/-- The per-token test inside `has_slash_command`.  Rust checks
`token.starts_with('/') && token.len() > 1 && !token[1..].contains('/')`;
`token.len()` is the byte length and `token[1..]` drops the one-byte `'/'`. -/
def isSlashCmdToken (t : Str) : Bool :=
  t.head? == some '/' && decide (1 < byteLen t) && !((t.drop 1).contains '/')

/-- `has_slash_command` from `pipeline/query.rs`. -/
def has_slash_command (s : Str) : Bool := (words s).any isSlashCmdToken

/-- The `for` loop of `count_information_units`, with the running `count`
returned and the `in_word` flag as the second argument. -/
def countUnitsAux : Str → Bool → Nat
  | [], _ => 0
  | c :: cs, inWord =>
    if isRustWs c then countUnitsAux cs false
    else if is_logographic c then 1 + countUnitsAux cs false
    else if inWord then countUnitsAux cs true
    else 1 + countUnitsAux cs true

/-- `count_information_units` from `pipeline/query.rs`. -/
def count_information_units (s : Str) : Nat := countUnitsAux s false

inductive QueryClass
  | Searchable
  | Trivial (reason : Str)
deriving DecidableEq, Repr

/-- `classify_query` from `pipeline/query.rs`. -/
def classify_query (prompt : Str) : QueryClass :=
  let trimmed := trim prompt
  if has_slash_command trimmed then .Trivial "slash command".toList
  else if count_information_units trimmed < MIN_QUERY_UNITS then .Trivial "too short".toList
  else .Searchable

/-! Spec-side notions for claim C1, written from the specification text. -/

/-- A character belonging to a "word" in the spec sense: neither whitespace
nor logographic. -/
def isWordChar (c : Char) : Bool := !isRustWs c && !is_logographic c

/-- Information units exactly as the spec words them: each logographic
character is one unit, and each maximal whitespace-separated run of other
characters is one unit (the whole run is consumed at once). -/
def specUnits : Str → Nat
  | [] => 0
  | c :: cs =>
    if isRustWs c then specUnits cs
    else if is_logographic c then 1 + specUnits cs
    else 1 + specUnits (cs.dropWhile isWordChar)
termination_by s => s.length
decreasing_by
  all_goals simp only [List.length_cons]
  all_goals first
    | omega
    | (have h := (List.dropWhile_sublist (l := cs) isWordChar).length_le; omega)

/-- The spec's slash-command condition on a whitespace-delimited token:
starts with `/`, has length greater than 1, and its remainder contains no
further `/`. -/
def SpecSlashToken (t : Str) : Prop :=
  t.head? = some '/' ∧ 1 < t.length ∧ '/' ∉ t.drop 1

/-- The prompt contains a whitespace-delimited slash-command token. -/
def SpecHasSlash (p : Str) : Prop := ∃ t ∈ words p, SpecSlashToken t

/-! ### `transcript/parser.rs` message types and `pipeline/chunker.rs` -/

/-- `MessageRole` from `transcript/parser.rs`. -/
inductive MessageRole
  | User
  | Assistant (tool_summary : List Str)
deriving DecidableEq, Repr

/-- `ParsedMessage` from `transcript/parser.rs`. -/
structure ParsedMessage where
  line_index : Nat
  text : Str
  role : MessageRole
  is_compaction_summary : Bool
deriving DecidableEq, Repr

/-- `ParsedMessage::is_user`. -/
def ParsedMessage.isUser (m : ParsedMessage) : Bool :=
  match m.role with
  | .User => true
  | .Assistant _ => false

/-- `ParsedMessage::is_assistant`. -/
def ParsedMessage.isAssistant (m : ParsedMessage) : Bool :=
  match m.role with
  | .User => false
  | .Assistant _ => true

/-- `Turn` from `pipeline/chunker.rs`. -/
structure Turn where
  line_index : Nat
  provisional : Bool
  text : Str
  tool_summary : List Str
  is_compaction_summary : Bool
deriving DecidableEq, Repr

/-- The pair-collection `while` loop at the top of `group_into_turns`:
a user message immediately followed (in the parsed-message sequence) by an
assistant message forms a pair and the cursor advances by 2, otherwise the
cursor advances by 1. -/
def collectPairs : List ParsedMessage → List (ParsedMessage × ParsedMessage)
  | [] => []
  | [_] => []
  | m1 :: m2 :: rest =>
    if m1.isUser && m2.isAssistant then (m1, m2) :: collectPairs rest
    else collectPairs (m2 :: rest)

/-- The `tool_summary` extraction in the body of `group_into_turns`. -/
def toolSummaryOf (a : ParsedMessage) : List Str :=
  match a.role with
  | .Assistant ts => ts
  | .User => []

/-- Construction of one `Turn` in the body of `group_into_turns`;
`next?` is `pairs[idx + 1]` when that pair exists. -/
def mkTurn (u a : ParsedMessage) (next? : Option (ParsedMessage × ParsedMessage)) : Turn :=
  let ts := toolSummaryOf a
  let t0 := "[User] ".toList ++ u.text ++ "\n\n[Assistant] ".toList ++ a.text
  let t1 := if ts.isEmpty then t0
    else t0 ++ "\n\n[Tools] ".toList ++ List.intercalate " | ".toList ts
  match next? with
  | some (nu, _) =>
    { line_index := u.line_index, provisional := false,
      text := t1 ++ "\n\n[User] ".toList ++ nu.text,
      tool_summary := ts, is_compaction_summary := u.is_compaction_summary }
  | none =>
    { line_index := u.line_index, provisional := true, text := t1,
      tool_summary := ts, is_compaction_summary := u.is_compaction_summary }

/-- The `for (idx, …) in pairs.iter().enumerate()` loop of `group_into_turns`:
each pair becomes a turn whose forward context comes from the head of the
remaining pair list. -/
def buildTurns : List (ParsedMessage × ParsedMessage) → List Turn
  | [] => []
  | (u, a) :: rest => mkTurn u a rest.head? :: buildTurns rest

/-- `group_into_turns` from `pipeline/chunker.rs` (the early return on an
empty pair list coincides with `buildTurns [] = []`). -/
def group_into_turns (messages : List ParsedMessage) : List Turn :=
  buildTurns (collectPairs messages)

/-- Spec-side description for claim C2: the Turn mandated for the pair at
index `i`, with text
`"[User] {user}\n\n[Assistant] {assistant}"`, then
`"\n\n[Tools] {s1} | {s2} | …"` when the tool-summary list is non-empty, then
`"\n\n[User] {next user}"` when pair `i+1` exists; provisional exactly when no
pair `i+1` exists. -/
def specTurnAt (pairs : List (ParsedMessage × ParsedMessage)) (i : Nat) : Option Turn :=
  (pairs[i]?).map fun p =>
    let ts := toolSummaryOf p.2
    { line_index := p.1.line_index
      provisional := (pairs[i + 1]?).isNone
      text :=
        "[User] ".toList ++ p.1.text ++ "\n\n[Assistant] ".toList ++ p.2.text
          ++ (if ts = [] then []
              else "\n\n[Tools] ".toList ++ List.intercalate " | ".toList ts)
          ++ (match pairs[i + 1]? with
              | some q => "\n\n[User] ".toList ++ q.1.text
              | none => [])
      tool_summary := ts
      is_compaction_summary := p.1.is_compaction_summary }

/-- Position `i` of the message list holds a user message. -/
def IsUserAt (l : List ParsedMessage) (i : Nat) : Prop :=
  ∃ m, l[i]? = some m ∧ m.isUser = true

/-- Position `i` of the message list holds an assistant message. -/
def IsAssistantAt (l : List ParsedMessage) (i : Nat) : Prop :=
  ∃ m, l[i]? = some m ∧ m.isAssistant = true

/-- No complete (adjacent) user-then-assistant pair exists in the sequence. -/
def NoAdjacentPair (l : List ParsedMessage) : Prop :=
  ∀ i, ¬ (IsUserAt l i ∧ IsAssistantAt l (i + 1))

/-! ### `transcript/types.rs` tool summarization -/

/-- A grapheme cluster, as segmented by the `unicode-segmentation` crate
(an external collaborator; the segmentation itself is its contract). -/
abbrev GC := List Char

/-- A string in its grapheme-cluster view, the view `truncate` operates in. -/
abbrev GStr := List GC

/-- Concatenation of the clusters back into the underlying string. -/
def gflat : GStr → Str
  | [] => []
  | c :: cs => c ++ gflat cs

/-- `MAX_VALUE_GRAPHEMES` from `transcript/types.rs`. -/
def MAX_VALUE_GRAPHEMES : Nat := 80

/-- `escape_quotes` from `transcript/types.rs`: `"` becomes `\"`. -/
def escape_quotes : Str → Str
  | [] => []
  | c :: cs => (if c = '"' then ['\\', '"'] else [c]) ++ escape_quotes cs

/-- `truncate` from `transcript/types.rs`.  The code first shortcuts when the
byte length already fits (a cluster is at least one byte); otherwise its
`grapheme_indices` loop looks for the byte index of cluster number
`max_graphemes`: absent when there are at most that many clusters (string
returned unchanged, `end == s.len()`), else the string is cut at that cluster
boundary and `...` is appended. -/
def truncate (s : GStr) (max_graphemes : Nat) : GStr :=
  if byteLen (gflat s) ≤ max_graphemes then s
  else if s.length ≤ max_graphemes then s
  else s.take max_graphemes ++ [['.'], ['.'], ['.']]

/-- A `tool_use` input object restricted to its string-valued fields — the
only fields `json_str` (`input.get(key)?.as_str()`) can retrieve — with each
value in grapheme-cluster view. -/
abbrev ToolInput := List (Str × GStr)

/-- `json_str` from `transcript/types.rs`. -/
def json_str (input : ToolInput) (key : Str) : Option GStr :=
  (input.find? (fun p => p.1 == key)).map (fun p => p.2)

/-- `format_kv` from `transcript/types.rs`. -/
def format_kv (name : Str) (pairs : List Str) : Str :=
  if pairs.isEmpty then name
  else name ++ "(".toList ++ List.intercalate ", ".toList pairs ++ ")".toList

/-- `summarize_single_field` (`WebFetch`, `WebSearch`). -/
def summarize_single_field (name : Str) (input : ToolInput) (key : Str) : Str :=
  match json_str input key with
  | some val => name ++ "(".toList ++ key ++ "=\"".toList
      ++ escape_quotes (gflat (truncate val MAX_VALUE_GRAPHEMES)) ++ "\")".toList
  | none => name

/-- `summarize_file_tool` (`Read`, `Edit`, `Write`): the path value is emitted
whole, with no `truncate` call. -/
def summarize_file_tool (name : Str) (input : ToolInput) : Str :=
  match json_str input "file_path".toList with
  | some path => name ++ "(".toList ++ gflat path ++ ")".toList
  | none => name

/-- `summarize_notebook_edit`: none of the three values is truncated. -/
def summarize_notebook_edit (input : ToolInput) : Str :=
  let parts :=
    (match json_str input "notebook_path".toList with
      | some p => [gflat p]
      | none => [])
    ++ (match json_str input "cell_id".toList with
      | some c => ["cell_id=\"".toList ++ escape_quotes (gflat c) ++ "\"".toList]
      | none => [])
    ++ (match json_str input "edit_mode".toList with
      | some m => ["edit_mode=\"".toList ++ gflat m ++ "\"".toList]
      | none => [])
  if parts.isEmpty then "NotebookEdit".toList
  else "NotebookEdit(".toList ++ List.intercalate ", ".toList parts ++ ")".toList

/-- `summarize_search_tool` (`Grep`, `Glob`): the pattern is truncated, the
`path` value is emitted untruncated. -/
def summarize_search_tool (name : Str) (input : ToolInput) : Str :=
  match json_str input "pattern".toList with
  | none => name
  | some pat =>
    let pairs := ["pattern=\"".toList
        ++ escape_quotes (gflat (truncate pat MAX_VALUE_GRAPHEMES)) ++ "\"".toList]
      ++ (match json_str input "path".toList with
        | some p => ["path=\"".toList ++ escape_quotes (gflat p) ++ "\"".toList]
        | none => [])
    format_kv name pairs

/-- Rust `str::lines().next().unwrap_or(c)` in cluster view: the clusters
before the first one containing `\n` (a lone `\n` or the single `\r\n`
cluster); on an empty string `lines()` yields nothing and the fallback is the
empty string itself. -/
def firstLine (s : GStr) : GStr := s.takeWhile (fun cl => !cl.contains '\n')

/-- `summarize_bash`. -/
def summarize_bash (input : ToolInput) : Str :=
  let pairs :=
    (match json_str input "description".toList with
      | some d => ["desc=\"".toList
          ++ escape_quotes (gflat (truncate d MAX_VALUE_GRAPHEMES)) ++ "\"".toList]
      | none => [])
    ++ (match json_str input "command".toList with
      | some c => ["cmd=\"".toList
          ++ escape_quotes (gflat (truncate (firstLine c) MAX_VALUE_GRAPHEMES))
          ++ "\"".toList]
      | none => [])
  format_kv "Bash".toList pairs

/-- `summarize_task`. -/
def summarize_task (input : ToolInput) : Str :=
  let pairs :=
    (match json_str input "description".toList with
      | some d => ["desc=\"".toList
          ++ escape_quotes (gflat (truncate d MAX_VALUE_GRAPHEMES)) ++ "\"".toList]
      | none => [])
    ++ (match json_str input "prompt".toList with
      | some p => ["prompt=\"".toList
          ++ escape_quotes (gflat (truncate (firstLine p) MAX_VALUE_GRAPHEMES))
          ++ "\"".toList]
      | none => [])
  format_kv "Task".toList pairs

/-- `summarize_skill`: the skill name is emitted untruncated, `args`
truncated. -/
def summarize_skill (input : ToolInput) : Str :=
  let pairs :=
    (match json_str input "skill".toList with
      | some s => ["skill=\"".toList ++ escape_quotes (gflat s) ++ "\"".toList]
      | none => [])
    ++ (match json_str input "args".toList with
      | some a => ["args=\"".toList
          ++ escape_quotes (gflat (truncate a MAX_VALUE_GRAPHEMES)) ++ "\"".toList]
      | none => [])
  format_kv "Skill".toList pairs

/-- `is_skipped_tool`. -/
def is_skipped_tool (name : Str) : Bool :=
  (["AskUserQuestion", "EnterPlanMode", "ExitPlanMode", "TaskCreate", "TaskGet",
    "TaskUpdate", "TaskList", "TaskOutput", "TaskStop", "TodoWrite"].map
    String.toList).contains name

/-- `summarize_tool` from `transcript/types.rs`. -/
def summarize_tool (name : Str) (input : Option ToolInput) : Str :=
  if is_skipped_tool name then []
  else
    match input with
    | none => name
    | some input =>
      if name = "Read".toList ∨ name = "Edit".toList ∨ name = "Write".toList then
        summarize_file_tool name input
      else if name = "NotebookEdit".toList then summarize_notebook_edit input
      else if name = "Grep".toList ∨ name = "Glob".toList then
        summarize_search_tool name input
      else if name = "Bash".toList then summarize_bash input
      else if name = "Task".toList then summarize_task input
      else if name = "Skill".toList then summarize_skill input
      else if name = "WebFetch".toList then
        summarize_single_field name input "url".toList
      else if name = "WebSearch".toList then
        summarize_single_field name input "query".toList
      else name

/-! ### `db/schema.rs` rows and `db/queries.rs` -/

/-- A row of the `sessions` table (the two timestamp columns are omitted; no
claim concerns them). -/
structure SessionRow where
  session_id : Str
  transcript_path : Str
  project_dir : Str
  last_line_index : Nat
  provisional_turn_start : Option Nat
  last_compact_line_index : Option Nat
deriving DecidableEq, Repr

/-- A row of the `memories` table; the embedding BLOB is the vector the
cosine-distance extension stores, with `ℚ` for the float components. -/
structure MemoryRow where
  session_id : Str
  line_index : Nat
  chunk_index : Nat
  role : Str
  content : Str
  embedding : List ℚ
deriving DecidableEq, Repr

/-- A row of the `file_mentions` table. -/
structure MentionRow where
  session_id : Str
  line_index : Nat
  file_path : Str
  tool_name : Str
deriving DecidableEq, Repr

/-- A row of the `pr_links` table. -/
structure PrRow where
  session_id : Str
  pr_number : Nat
  pr_url : Str
  pr_repository : Str
  timestamp : Str
deriving DecidableEq, Repr

/-- Modelled from the spec: a row of the `entries` store of the ten-table
schema variant (`Entry { session_id, line_index, entry_type, content,
tool_summary, timestamp? }`, `UNIQUE(session_id, line_index)`).  No migration
in `db/schema.rs` creates such a table and `db/queries.rs` has no function
writing one, although `transcript/parser.rs` documents its `RawEntry` output
as destined "for the `entries` table"; the type exists here so the raw-entry
persistence claim can be stated against the code. -/
structure EntryRow where
  session_id : Str
  line_index : Nat
  entry_type : Str
  content : Str
  tool_summary : Str
  timestamp : Option Str
deriving DecidableEq, Repr

/-- The database state: the four tables of `db/schema.rs` (migration v4),
plus the spec-modelled `entries` store (see `EntryRow`). -/
structure Db where
  sessions : List SessionRow
  memories : List MemoryRow
  file_mentions : List MentionRow
  pr_links : List PrRow
  entries : List EntryRow
deriving DecidableEq, Repr

/-- `get_session` from `db/queries.rs`. -/
def get_session (db : Db) (sid : Str) : Option SessionRow :=
  db.sessions.find? (fun r => r.session_id == sid)

/-- `upsert_session` from `db/queries.rs`: `INSERT … ON CONFLICT(session_id)
DO UPDATE SET transcript_path, last_line_index, provisional_turn_start,
last_compact_line_index = COALESCE(excluded.last_compact_line_index,
sessions.last_compact_line_index)`.  `project_dir` is not in the `DO UPDATE
SET` list, so it is never changed for an existing row. -/
def upsert_session (db : Db) (s : SessionRow) : Db :=
  if db.sessions.any (fun r => r.session_id == s.session_id) then
    { db with sessions := db.sessions.map (fun r =>
        if r.session_id == s.session_id then
          { r with transcript_path := s.transcript_path,
                   last_line_index := s.last_line_index,
                   provisional_turn_start := s.provisional_turn_start,
                   last_compact_line_index :=
                     match s.last_compact_line_index with
                     | some v => some v
                     | none => r.last_compact_line_index }
        else r) }
  else { db with sessions := db.sessions ++ [s] }

/-- `insert_memory` (`INSERT OR REPLACE` on `UNIQUE(session_id, line_index,
chunk_index)`). -/
def insert_memory (db : Db) (sid : Str) (line chunk : Nat) (role content : Str)
    (embedding : List ℚ) : Db :=
  { db with memories :=
      db.memories.filter (fun r =>
        !(r.session_id == sid && r.line_index == line && r.chunk_index == chunk))
      ++ [⟨sid, line, chunk, role, content, embedding⟩] }

/-- `delete_memories_at`. -/
def delete_memories_at (db : Db) (sid : Str) (line : Nat) : Db :=
  { db with memories := db.memories.filter (fun r =>
      !(r.session_id == sid && r.line_index == line)) }

/-- `insert_file_mention` (`INSERT OR IGNORE` on the four-column UNIQUE
key). -/
def insert_file_mention (db : Db) (sid : Str) (line : Nat) (path tool : Str) : Db :=
  if db.file_mentions.any (fun r =>
      r.session_id == sid && r.line_index == line && r.file_path == path
        && r.tool_name == tool) then db
  else { db with file_mentions := db.file_mentions ++ [⟨sid, line, path, tool⟩] }

/-- `delete_file_mentions_at`. -/
def delete_file_mentions_at (db : Db) (sid : Str) (line : Nat) : Db :=
  { db with file_mentions := db.file_mentions.filter (fun r =>
      !(r.session_id == sid && r.line_index == line)) }

/-- `insert_pr_link` (`INSERT OR IGNORE` on `UNIQUE(session_id,
pr_number)`). -/
def insert_pr_link (db : Db) (sid : Str) (num : Nat) (url repo ts : Str) : Db :=
  if db.pr_links.any (fun r => r.session_id == sid && r.pr_number == num) then db
  else { db with pr_links := db.pr_links ++ [⟨sid, num, url, repo, ts⟩] }

/-- One candidate produced by the `vector_full_scan` virtual table joined back
to `memories`: a stored row plus its cosine distance to the query.  The scan
itself — the top-`k` rows by distance — is the loadable extension's contract
and enters `search_memories` as the input list, already distance-ordered. -/
structure ScanRow where
  row : MemoryRow
  distance : ℚ
deriving DecidableEq, Repr

/-- The `WHERE` clause shared by `search_memories` and `search_by_file_path`:
`?ex IS NULL OR m.session_id != ?ex OR (?b IS NOT NULL AND m.line_index <=
?b)`. -/
def in_context_keep (exclude : Option Str) (boundary : Option Nat)
    (sid : Str) (line : Nat) : Bool :=
  match exclude with
  | none => true
  | some e => decide (sid ≠ e) || (match boundary with
      | some b => decide (line ≤ b)
      | none => false)

/-- `search_memories` from `db/queries.rs`: the scan's rows restricted by the
in-context filter (distance order preserved from the scan). -/
def search_memories (scan : List ScanRow) (exclude : Option Str)
    (boundary : Option Nat) : List ScanRow :=
  scan.filter (fun r =>
    in_context_keep exclude boundary r.row.session_id r.row.line_index)

/-- The filtered `file_mentions` rows inside `search_by_file_path`: the path
equals one of the requested paths (the SQL `OR`-chain) and the in-context
filter passes. -/
def sbfp_rows (db : Db) (paths : List Str) (exclude : Option Str)
    (boundary : Option Nat) : List MentionRow :=
  db.file_mentions.filter (fun r =>
    paths.contains r.file_path
      && in_context_keep exclude boundary r.session_id r.line_index)

/-- `COUNT(DISTINCT file_path)` for the `(session_id, line_index)` group. -/
def sbfp_count (db : Db) (paths : List Str) (exclude : Option Str)
    (boundary : Option Nat) (key : Str × Nat) : Nat :=
  (((sbfp_rows db paths exclude boundary).filter (fun r =>
      r.session_id == key.1 && r.line_index == key.2)).map
    (fun r => r.file_path)).dedup.length

/-- Insertion into a list kept in descending-count order. -/
def insertByCountDesc (cnt : (Str × Nat) → Nat) (x : Str × Nat) :
    List (Str × Nat) → List (Str × Nat)
  | [] => [x]
  | y :: ys => if cnt y < cnt x then x :: y :: ys else y :: insertByCountDesc cnt x ys

/-- `ORDER BY match_count DESC` (ties in unspecified order, as in SQL). -/
def sortByCountDesc (cnt : (Str × Nat) → Nat) : List (Str × Nat) → List (Str × Nat)
  | [] => []
  | x :: xs => insertByCountDesc cnt x (sortByCountDesc cnt xs)

/-- `search_by_file_path` from `db/queries.rs`: empty input short-circuits;
otherwise `GROUP BY session_id, line_index` over the filtered mention rows,
`ORDER BY` distinct-path match count descending, `LIMIT k`. -/
def search_by_file_path (db : Db) (paths : List Str) (exclude : Option Str)
    (boundary : Option Nat) (k : Nat) : List (Str × Nat) :=
  if paths.isEmpty then []
  else
    (sortByCountDesc (sbfp_count db paths exclude boundary)
      (((sbfp_rows db paths exclude boundary).map
        (fun r => (r.session_id, r.line_index))).dedup)).take k

/-! ### `pipeline/ingest.rs` -/

/-- Rust `prefix.strip_suffix('/').unwrap_or(prefix)`. -/
def stripTrailingSlash (p : Str) : Str :=
  if p.getLast? = some '/' then p.dropLast else p

/-- Rust `str::strip_prefix(prefix)` for a string pattern. -/
def stripLeading (pre s : Str) : Option Str :=
  if pre.isPrefixOf s then some (s.drop pre.length) else none

/-- Rust `rel.strip_prefix('/').unwrap_or(rel)`. -/
def stripLeadingSlash (s : Str) : Str :=
  match s with
  | c :: rest => if c = '/' then rest else c :: rest
  | [] => []

/-- The `for prefix in [project_dir, project_root]` loop of `normalize_path`:
the first prefix that strips decides the outcome (`None` when the remainder is
empty). -/
def tryStripPrefixes : List Str → Str → Option Str
  | [], _ => none
  | pre :: rest, path =>
    match stripLeading (stripTrailingSlash pre) path with
    | some rel =>
      let rel' := stripLeadingSlash rel
      if rel' = [] then none else some rel'
    | none => tryStripPrefixes rest path

/-- `normalize_path` from `pipeline/ingest.rs`: a path not starting with `/`
passes through unchanged; an absolute path is matched against `project_dir`
then `project_root`; an absolute path outside both is discarded. -/
def normalize_path (path project_dir project_root : Str) : Option Str :=
  if path.head? ≠ some '/' then some path
  else tryStripPrefixes [project_dir, project_root] path

/-- `FILE_EXTENSIONS` from `pipeline/ingest.rs`. -/
def FILE_EXTENSIONS : List Str :=
  [".rs", ".ts", ".tsx", ".js", ".jsx", ".py", ".go", ".java", ".c", ".cpp", ".h",
   ".hpp", ".toml", ".yaml", ".yml", ".json", ".md", ".txt", ".sh", ".sql", ".html",
   ".css", ".lock", ".xml", ".cfg", ".ini", ".env", ".rb", ".swift", ".kt",
   ".scala"].map String.toList

/-- `looks_like_path` from `pipeline/ingest.rs`. -/
def looks_like_path (token : Str) : Bool :=
  !token.isEmpty && (token.contains '/'
    || FILE_EXTENSIONS.any (fun ext => ext.isSuffixOf token))

/-- Rust `str::trim_matches` with a character-set predicate (strips matching
characters from both ends). -/
def trimMatches (p : Char → Bool) (s : Str) : Str :=
  ((s.dropWhile p).reverse.dropWhile p).reverse

/-- Rust `str::trim_end_matches` (strips matching characters from the end). -/
def trimEndMatches (p : Char → Bool) (s : Str) : Str :=
  (s.reverse.dropWhile p).reverse

/-- The shell-quote characters stripped from command tokens
(`trim_matches` in `extract_path_like_tokens`). -/
def shellQuoteChar (c : Char) : Bool :=
  c == '\'' || c == '"' || c == '`'

/-- `extract_path_like_tokens` from `pipeline/ingest.rs`. -/
def extract_path_like_tokens (cmd : Str) : List Str :=
  ((words cmd).map (trimMatches shellQuoteChar)).filter looks_like_path

/-- Index (in characters; Rust uses the equivalent byte index only to slice at
the same spot) of the first occurrence of `needle` in `hay`, as Rust
`str::find`. -/
def findSub (needle : Str) : Str → Option Nat
  | [] => if needle.isPrefixOf [] then some 0 else none
  | c :: rest =>
    if needle.isPrefixOf (c :: rest) then some 0
    else (findSub needle rest).map (· + 1)

/-- The closing-quote scan of `extract_quoted_value`: position of the first
`"` whose immediately preceding character was not `\` (the `prev_backslash`
flag only remembers the single previous character). -/
def findCloseQuote : Str → Bool → Option Nat
  | [], _ => none
  | c :: rest, prevBs =>
    if c == '"' && !prevBs then some 0
    else (findCloseQuote rest (c == '\\')).map (· + 1)

/-- `extract_quoted_value` from `pipeline/ingest.rs`: the text between
`key="` and the next unescaped `"`. -/
def extract_quoted_value (args key : Str) : Option Str :=
  match findSub (key ++ "=\"".toList) args with
  | none => none
  | some idx =>
    let remaining := args.drop (idx + (key ++ "=\"".toList).length)
    (findCloseQuote remaining false).map (fun n => remaining.take n)

/-- The per-summary body of `extract_file_paths`: the text before the first
`(` is the tool name; the text after it with the final character removed is
the argument string (Rust slices `summary[paren_idx+1..len-1]`; for a summary
ending in its `(` Rust would panic, the model yields the empty argument —
such a summary is never produced by `summarize_tool`). -/
def extractOneSummary (summary pd pr : Str) : List (Str × Str) :=
  match summary.findIdx? (fun c => c == '(') with
  | none => []
  | some paren_idx =>
    let tool_name := summary.take paren_idx
    let args := (summary.take (summary.length - 1)).drop (paren_idx + 1)
    if tool_name = "Read".toList ∨ tool_name = "Edit".toList
        ∨ tool_name = "Write".toList then
      match normalize_path args pd pr with
      | some n => [(n, tool_name)]
      | none => []
    else if tool_name = "NotebookEdit".toList then
      -- `args.split(',').next().unwrap_or(args).trim()`
      match normalize_path (trim (args.takeWhile (fun c => !(c == ',')))) pd pr with
      | some n => [(n, tool_name)]
      | none => []
    else if tool_name = "Grep".toList then
      match extract_quoted_value args "path".toList with
      | some p =>
        match normalize_path p pd pr with
        | some n => [(n, tool_name)]
        | none => []
      | none => []
    else if tool_name = "Bash".toList then
      match extract_quoted_value args "cmd".toList with
      | some cmd =>
        (extract_path_like_tokens cmd).filterMap (fun token =>
          (normalize_path token pd pr).map (fun n => (n, tool_name)))
      | none => []
    else []

/-- `extract_file_paths` from `pipeline/ingest.rs`. -/
def extract_file_paths : List Str → Str → Str → List (Str × Str)
  | [], _, _ => []
  | summary :: rest, pd, pr =>
    extractOneSummary summary pd pr ++ extract_file_paths rest pd pr

/-- Lexicographic code-point order on strings; UTF-8 byte order coincides with
it, so this is the order of Rust `Vec<String>::sort`. -/
def lexLt : Str → Str → Bool
  | [], [] => false
  | [], _ :: _ => true
  | _ :: _, [] => false
  | a :: xs, b :: ys => if a = b then lexLt xs ys else decide (a < b)

/-- Sorted insertion for `Vec::sort` (ascending). -/
def insertSorted (x : Str) : List Str → List Str
  | [] => [x]
  | y :: ys => if lexLt y x then y :: insertSorted x ys else x :: y :: ys

/-- `Vec::sort` (insertion sort; a permutation in ascending `lexLt` order). -/
def sortStrs : List Str → List Str
  | [] => []
  | x :: xs => insertSorted x (sortStrs xs)

/-- `Vec::dedup`: removes consecutive duplicates. -/
def dedupAdj : List Str → List Str
  | [] => []
  | [x] => [x]
  | x :: y :: rest =>
    if x = y then dedupAdj (y :: rest) else x :: dedupAdj (y :: rest)

/-- The string contains two adjacent `/` characters (used to state the
amended FileMention invariant). -/
def hasDoubleSlash : Str → Bool
  | [] => false
  | [_] => false
  | a :: b :: rest => (a == '/' && b == '/') || hasDoubleSlash (b :: rest)

/-- The trailing-punctuation set stripped from `@`-mention tokens
(`trim_end_matches` in `extract_at_mentions`). -/
def atMentionPunct (c : Char) : Bool :=
  c == ',' || c == ';' || c == ':' || c == ')' || c == '?' || c == '!'

/-- The token-to-mention function inside `extract_at_mentions`: strip the
leading `@`, strip trailing punctuation, skip empty residues, normalize. -/
def atMentionOf (pd pr : Str) (token : Str) : Option Str :=
  match token with
  | a :: path =>
    if a = '@' then
      let path := trimEndMatches atMentionPunct path
      if path = [] then none else normalize_path path pd pr
    else none
  | [] => none

/-- `extract_at_mentions` from `pipeline/ingest.rs`: whitespace-split tokens
starting with `@`, trailing punctuation stripped, empty residues skipped,
normalized, then sorted and deduplicated. -/
def extract_at_mentions (turn_text pd pr : Str) : List Str :=
  dedupAdj (sortStrs ((words turn_text).filterMap (atMentionOf pd pr)))

/-! ### Transcript model and `run_ingest` -/

/-- The content of a transcript line that parses to a user/assistant message;
the parser assigns the `line_index` from the line's position. -/
structure MsgData where
  text : Str
  role : MessageRole
  is_compaction_summary : Bool
deriving DecidableEq, Repr

/-- What `process_entry` in `transcript/parser.rs` does with one line — each
line is classified independently of every other line.  `msg`: a
user/assistant message kept as a raw entry and a parsed message; `rawOnly`:
an accepted non-noise line kept only as a raw entry (empty extracted text with
no tool summary, or a `compact_boundary`/`file_history_snapshot` line);
`prlink`: a `pr-link` entry with all required fields present; `skip`: an
empty, malformed, noise, or otherwise skipped line. -/
inductive LineKind
  | msg (d : MsgData)
  | rawOnly
  | prlink (num : Nat) (url repo ts : Str)
  | skip
deriving DecidableEq, Repr

abbrev Transcript := List LineKind

/-- The line loop of `parse_transcript`, restricted to the `messages` output:
lines with index `< start` are skipped; `idx` is the index of the first line
of `t`. -/
def parseFrom (t : Transcript) (idx start : Nat) : List ParsedMessage :=
  match t with
  | [] => []
  | l :: rest =>
    let tail := parseFrom rest (idx + 1) start
    if start ≤ idx then
      match l with
      | .msg d => ⟨idx, d.text, d.role, d.is_compaction_summary⟩ :: tail
      | _ => tail
    else tail

/-- `parse_transcript(path, start).messages`. -/
def parseMessages (t : Transcript) (start : Nat) : List ParsedMessage :=
  parseFrom t 0 start

/-- The `pr_links` output of `parse_transcript` (fields used by
`run_ingest`). -/
def parsePrFrom (t : Transcript) (idx start : Nat) : List (Nat × Str × Str × Str) :=
  match t with
  | [] => []
  | l :: rest =>
    let tail := parsePrFrom rest (idx + 1) start
    if start ≤ idx then
      match l with
      | .prlink num url repo ts => (num, url, repo, ts) :: tail
      | _ => tail
    else tail

/-- The number of `raw_entries` `parse_transcript` produces from `start`
(one per accepted non-noise line). -/
def parseRawCount (t : Transcript) (idx start : Nat) : Nat :=
  match t with
  | [] => 0
  | l :: rest =>
    let tail := parseRawCount rest (idx + 1) start
    if start ≤ idx then
      match l with
      | .msg _ => 1 + tail
      | .rawOnly => 1 + tail
      | _ => tail
    else tail

/-- Rust `Iterator::max().unwrap_or(d)` over naturals. -/
def natMaxD (l : List Nat) (d : Nat) : Nat :=
  match l with
  | [] => d
  | _ :: _ => l.foldr max 0

/-- The per-turn body of the ingest loop in `run_ingest`: chunk the turn
(skip it entirely when no chunks form), embed and store every chunk, store
tool-derived and `@`-mention file mentions, record the provisional start and
advance `last_line_index` to `turn.line_index + 2`.  The fold state is
`(database, last_line_index, new_provisional_turn_start)`.  `chunkTurn`
abstracts `chunk_turn` (tokenizer-driven markdown splitting — a collaborator
contract) and `embed` the embedder contract. -/
def ingestTurn (chunkTurn : Turn → List Str) (embed : Str → List ℚ)
    (sid pd pr : Str) (st : Db × Nat × Option Nat) (turn : Turn) :
    Db × Nat × Option Nat :=
  let chunks := chunkTurn turn
  if chunks.isEmpty then st
  else
    let role := if turn.is_compaction_summary then "compaction_summary".toList
      else "turn".toList
    let db1 := chunks.enum.foldl (fun db p =>
      insert_memory db sid turn.line_index p.1 role p.2 (embed p.2)) st.1
    let db2 := (extract_file_paths turn.tool_summary pd pr).foldl (fun db fp =>
      insert_file_mention db sid turn.line_index fp.1 fp.2) db1
    let db3 := (extract_at_mentions turn.text pd pr).foldl (fun db p =>
      insert_file_mention db sid turn.line_index p "mention".toList) db2
    (db3, turn.line_index + 2,
      if turn.provisional then some turn.line_index else st.2.2)

/-- `run_ingest` from `pipeline/ingest.rs` (the success path; an embedding
failure aborts with an error before the final session upsert, leaving the
session row untouched). -/
def run_ingest (chunkTurn : Turn → List Str) (embed : Str → List ℚ) (db : Db)
    (sid transcript_path pd pr : Str) (t : Transcript) : Db :=
  let session := get_session db sid
  let start_line := match session with
    | some s => s.last_line_index
    | none => 0
  let provisional_start := match session with
    | some s => s.provisional_turn_start
    | none => none
  let read_from := provisional_start.getD start_line
  let messages := parseMessages t read_from
  let pr_links := parsePrFrom t 0 read_from
  if messages.isEmpty && pr_links.isEmpty then db
  else
    let turns := group_into_turns messages
    let db := if session.isNone then
        upsert_session db ⟨sid, transcript_path, pd, read_from, none, none⟩
      else db
    let db := pr_links.foldl (fun db q =>
      insert_pr_link db sid q.1 q.2.1 q.2.2.1 q.2.2.2) db
    if turns.isEmpty then db
    else
      let db := match provisional_start with
        | some prov_line =>
          delete_file_mentions_at (delete_memories_at db sid prov_line) sid prov_line
        | none => db
      let st := turns.foldl (ingestTurn chunkTurn embed sid pd pr) (db, read_from, none)
      let max_message_line := natMaxD (messages.map (fun m => m.line_index)) read_from
      let last := max st.2.1 (max_message_line + 1)
      upsert_session st.1 ⟨sid, transcript_path, pd, last, st.2.2,
        session.bind (fun s => s.last_compact_line_index)⟩

/-- The database every project starts from. -/
def emptyDb : Db := ⟨[], [], [], [], []⟩

/-- A sequence of `run_ingest` invocations for one session, starting from the
empty database. -/
def run_ingest_seq (chunkTurn : Turn → List Str) (embed : Str → List ℚ)
    (sid tp pd pr : Str) (ts : List Transcript) : Db :=
  ts.foldl (fun db t => run_ingest chunkTurn embed db sid tp pd pr t) emptyDb

/-- The transcript grows append-only. -/
def Grows (t t' : Transcript) : Prop := ∃ u, t ++ u = t'

/-- The largest parsed line index. -/
def maxLine (ms : List ParsedMessage) : Nat :=
  (ms.map (fun m => m.line_index)).foldr max 0

/-- Reachability invariant tying a stored session row to the current
transcript: whenever a provisional turn start `p` is recorded, the parse from
`p` is non-empty, and `last_line_index` is at most one past its largest parsed
line.  Both parts are stable under appending transcript lines. -/
def SessionInv (t : Transcript) (s : SessionRow) : Prop :=
  ∀ p, s.provisional_turn_start = some p →
    parseMessages t p ≠ [] ∧ s.last_line_index ≤ maxLine (parseMessages t p) + 1

/-- The pure `(last_line_index, new_provisional_turn_start)` component of the
ingest loop body (`ingestTurn` with the database projected away). -/
def ingestTurnLP (chunkTurn : Turn → List Str) (st : Nat × Option Nat)
    (turn : Turn) : Nat × Option Nat :=
  if (chunkTurn turn).isEmpty then st
  else (turn.line_index + 2, if turn.provisional then some turn.line_index else st.2)

/-! ## Theorems -/

theorem utf8Len_pos (c : Char) : 0 < utf8Len c := by
  unfold utf8Len
  split
  · omega
  · split
    · omega
    · split <;> omega

theorem byteLen_cons (c : Char) (s : Str) : byteLen (c :: s) = utf8Len c + byteLen s := by
  simp [byteLen]

theorem length_le_byteLen (s : Str) : s.length ≤ byteLen s := by
  induction s with
  | nil => simp [byteLen]
  | cons c cs ih =>
    have hc := utf8Len_pos c
    rw [byteLen_cons]
    simp only [List.length_cons]
    omega

theorem mem_takeWhile_sat {p : α → Bool} {l : List α} {a : α}
    (h : a ∈ l.takeWhile p) : p a = true := by
  induction l with
  | nil => simp at h
  | cons c cs ih =>
    rw [List.takeWhile_cons] at h
    by_cases hc : p c
    · simp only [hc, if_true, List.mem_cons] at h
      rcases h with h | h
      · exact h ▸ hc
      · exact ih h
    · simp [hc] at h

theorem wordsAux_allWs : ∀ w acc : Str, (∀ c ∈ w, isRustWs c = true) →
    wordsAux w acc = if acc.isEmpty then [] else [acc.reverse] := by
  intro w
  induction w with
  | nil =>
    intro acc _
    rfl
  | cons c cs ih =>
    intro acc hw
    rw [wordsAux, if_pos (hw c (by simp))]
    by_cases ha : acc.isEmpty
    · rw [if_pos ha, if_pos ha, ih [] (fun d hd => hw d (by simp [hd]))]
      rfl
    · rw [if_neg ha, if_neg ha, ih [] (fun d hd => hw d (by simp [hd]))]
      rfl

theorem words_dropWhile_ws (s : Str) : words (s.dropWhile isRustWs) = words s := by
  unfold words
  induction s with
  | nil => rfl
  | cons c cs ih =>
    rw [List.dropWhile_cons]
    by_cases hc : isRustWs c
    · rw [if_pos hc, wordsAux, if_pos hc]
      simpa using ih
    · rw [if_neg hc]

theorem wordsAux_append_ws : ∀ s w acc : Str, (∀ c ∈ w, isRustWs c = true) →
    wordsAux (s ++ w) acc = wordsAux s acc := by
  intro s
  induction s with
  | nil =>
    intro w acc hw
    rw [List.nil_append, wordsAux_allWs w acc hw]
    rfl
  | cons c cs ih =>
    intro w acc hw
    rw [List.cons_append, wordsAux]
    by_cases hc : isRustWs c
    · rw [if_pos hc, wordsAux, if_pos hc]
      by_cases ha : acc.isEmpty
      · rw [if_pos ha, if_pos ha, ih w [] hw]
      · rw [if_neg ha, if_neg ha, ih w [] hw]
    · rw [if_neg hc, wordsAux, if_neg hc, ih w (c :: acc) hw]

/-- Decompose a list into its trailing run of whitespace. -/
theorem exists_trailing_ws (l : Str) :
    ∃ w, ((l.reverse.dropWhile isRustWs).reverse) ++ w = l ∧
      ∀ c ∈ w, isRustWs c = true := by
  refine ⟨(l.reverse.takeWhile isRustWs).reverse, ?_, ?_⟩
  · rw [← List.reverse_append, List.takeWhile_append_dropWhile, List.reverse_reverse]
  · intro c hc
    rw [List.mem_reverse] at hc
    exact mem_takeWhile_sat hc

theorem words_trim (s : Str) : words (trim s) = words s := by
  unfold trim
  obtain ⟨w, hw, hws⟩ := exists_trailing_ws (s.dropWhile isRustWs)
  calc words ((s.dropWhile isRustWs).reverse.dropWhile isRustWs).reverse
      = words (((s.dropWhile isRustWs).reverse.dropWhile isRustWs).reverse ++ w) := by
        unfold words
        rw [wordsAux_append_ws _ w [] hws]
    _ = words (s.dropWhile isRustWs) := by rw [hw]
    _ = words s := words_dropWhile_ws s

theorem countUnitsAux_allWs {w : Str} (hw : ∀ c ∈ w, isRustWs c = true) (b : Bool) :
    countUnitsAux w b = 0 := by
  induction w generalizing b with
  | nil => rfl
  | cons c cs ih =>
    rw [countUnitsAux, if_pos (hw c (by simp))]
    exact ih (fun d hd => hw d (by simp [hd])) false

theorem countUnitsAux_append_ws {w : Str} (hw : ∀ c ∈ w, isRustWs c = true)
    (s : Str) (b : Bool) : countUnitsAux (s ++ w) b = countUnitsAux s b := by
  induction s generalizing b with
  | nil => simpa using countUnitsAux_allWs hw b
  | cons c cs ih =>
    rw [List.cons_append, countUnitsAux, countUnitsAux]
    by_cases h1 : isRustWs c
    · rw [if_pos h1, if_pos h1, ih]
    · rw [if_neg h1, if_neg h1]
      by_cases h2 : is_logographic c
      · rw [if_pos h2, if_pos h2, ih]
      · rw [if_neg h2, if_neg h2]
        cases b
        · simp only [Bool.false_eq_true, if_false, ih]
        · simp only [if_true, ih]

theorem countUnitsAux_dropWhile_ws (s : Str) :
    countUnitsAux (s.dropWhile isRustWs) false = countUnitsAux s false := by
  induction s with
  | nil => rfl
  | cons c cs ih =>
    rw [List.dropWhile_cons]
    by_cases hc : isRustWs c
    · rw [if_pos hc, countUnitsAux, if_pos hc]
      exact ih
    · rw [if_neg hc]

theorem count_trim (s : Str) :
    count_information_units (trim s) = count_information_units s := by
  unfold count_information_units trim
  obtain ⟨w, hw, hws⟩ := exists_trailing_ws (s.dropWhile isRustWs)
  calc countUnitsAux ((s.dropWhile isRustWs).reverse.dropWhile isRustWs).reverse false
      = countUnitsAux (((s.dropWhile isRustWs).reverse.dropWhile isRustWs).reverse ++ w)
          false := (countUnitsAux_append_ws hws _ false).symm
    _ = countUnitsAux (s.dropWhile isRustWs) false := by rw [hw]
    _ = countUnitsAux s false := countUnitsAux_dropWhile_ws s

theorem countUnitsAux_true_eq (s : Str) :
    countUnitsAux s true = countUnitsAux (s.dropWhile isWordChar) false := by
  induction s with
  | nil => rfl
  | cons c cs ih =>
    rw [List.dropWhile_cons]
    by_cases hwc : isWordChar c
    · have h1 : isRustWs c = false := by
        have := hwc
        unfold isWordChar at this
        simp only [Bool.and_eq_true, Bool.not_eq_true'] at this
        exact this.1
      have h2 : is_logographic c = false := by
        have := hwc
        unfold isWordChar at this
        simp only [Bool.and_eq_true, Bool.not_eq_true'] at this
        exact this.2
      rw [if_pos hwc, countUnitsAux, if_neg (by simp [h1]), if_neg (by simp [h2]),
        if_pos rfl]
      exact ih
    · rw [if_neg hwc]
      have : isRustWs c = true ∨ is_logographic c = true := by
        unfold isWordChar at hwc
        simp only [Bool.and_eq_true, Bool.not_eq_true'] at hwc
        by_cases h1 : isRustWs c
        · exact Or.inl h1
        · right
          by_cases h2 : is_logographic c
          · exact h2
          · exact absurd ⟨by simp [h1], by simp [h2]⟩ hwc
      rcases this with h | h
      · rw [countUnitsAux, if_pos h, countUnitsAux, if_pos h]
      · by_cases h1 : isRustWs c
        · rw [countUnitsAux, if_pos h1, countUnitsAux, if_pos h1]
        · rw [countUnitsAux, if_neg h1, if_pos h, countUnitsAux, if_neg h1, if_pos h]

theorem count_eq_specUnits (s : Str) : count_information_units s = specUnits s := by
  unfold count_information_units
  induction s using specUnits.induct with
  | case1 =>
    rw [specUnits, countUnitsAux]
  | case2 c cs hc ih =>
    rw [countUnitsAux, if_pos hc, specUnits, if_pos hc]
    exact ih
  | case3 c cs hc hl ih =>
    rw [countUnitsAux, if_neg hc, if_pos hl, specUnits, if_neg hc, if_pos hl]
    exact congrArg (1 + ·) ih
  | case4 c cs hc hl ih =>
    rw [countUnitsAux, if_neg hc, if_neg hl, if_neg (by simp), specUnits,
      if_neg hc, if_neg hl]
    rw [countUnitsAux_true_eq]
    exact congrArg (1 + ·) ih

theorem byteLen_eq_zero_iff (s : Str) : byteLen s = 0 ↔ s = [] := by
  cases s with
  | nil => simp [byteLen]
  | cons c cs =>
    rw [byteLen_cons]
    have := utf8Len_pos c
    simp only [iff_false, List.cons_ne_nil]
    omega

theorem isSlashCmdToken_iff (t : Str) : isSlashCmdToken t = true ↔ SpecSlashToken t := by
  unfold isSlashCmdToken SpecSlashToken
  cases t with
  | nil => simp
  | cons c rest =>
    simp only [List.head?_cons, List.drop_one, List.tail_cons, Bool.and_eq_true,
      Bool.not_eq_true', Option.some.injEq, beq_iff_eq, decide_eq_true_eq,
      List.length_cons]
    constructor
    · rintro ⟨⟨hc, hlen⟩, hcont⟩
      subst hc
      refine ⟨rfl, ?_, ?_⟩
      · rw [byteLen_cons] at hlen
        have h1 : utf8Len '/' = 1 := by decide
        rw [h1] at hlen
        have h2 := length_le_byteLen rest
        have h3 : rest ≠ [] := by
          intro h
          subst h
          simp [byteLen] at hlen
        have h4 : 0 < rest.length := List.length_pos.mpr h3
        omega
      · intro hmem
        rw [List.contains_eq_any_beq] at hcont
        simp only [List.any_eq_false, beq_iff_eq] at hcont
        exact hcont '/' hmem rfl
    · rintro ⟨hc, hlen, hcont⟩
      subst hc
      refine ⟨⟨rfl, ?_⟩, ?_⟩
      · rw [byteLen_cons]
        have h1 : utf8Len '/' = 1 := by decide
        rw [h1]
        have h3 : rest ≠ [] := by
          intro h
          subst h
          simp at hlen
        have : byteLen rest ≠ 0 := fun h => h3 ((byteLen_eq_zero_iff rest).mp h)
        omega
      · rw [List.contains_eq_any_beq]
        simp only [List.any_eq_false, beq_iff_eq]
        intro a ha hEq
        exact hcont (hEq ▸ ha)

theorem has_slash_command_iff (s : Str) :
    has_slash_command s = true ↔ ∃ t ∈ words s, SpecSlashToken t := by
  unfold has_slash_command
  rw [List.any_eq_true]
  constructor
  · rintro ⟨t, ht, hsl⟩
    exact ⟨t, ht, (isSlashCmdToken_iff t).mp hsl⟩
  · rintro ⟨t, ht, hsl⟩
    exact ⟨t, ht, (isSlashCmdToken_iff t).mpr hsl⟩

/-- C1: `classify_query` returns `Trivial` exactly when the prompt contains a
whitespace-delimited token that starts with `/`, has length greater than 1 and
whose remainder contains no further `/`, or when the prompt has fewer than 3
information units (each logographic character — CJK ideograph, hiragana, full-
and half-width katakana, not Hangul — is one unit, each whitespace-separated
word of other characters is one unit).  In particular a prompt with exactly 3
units and no slash-command token is classified `Searchable`. -/
theorem claim_C1_classify_query_trivial_iff (p : Str) :
    (∃ r, classify_query p = QueryClass.Trivial r) ↔
      (SpecHasSlash p ∨ specUnits p < 3) := by
  unfold classify_query SpecHasSlash
  by_cases hs : has_slash_command (trim p)
  · simp only [hs, if_true]
    constructor
    · intro _
      left
      have := (has_slash_command_iff (trim p)).mp hs
      rwa [words_trim] at this
    · intro _
      exact ⟨_, rfl⟩
  · simp only [hs, if_false, Bool.false_eq_true]
    have hns : ¬ ∃ t ∈ words p, SpecSlashToken t := by
      intro hcon
      apply hs
      rw [has_slash_command_iff, words_trim]
      exact hcon
    by_cases hu : count_information_units (trim p) < MIN_QUERY_UNITS
    · simp only [hu, if_true]
      constructor
      · intro _
        right
        rw [count_trim, count_eq_specUnits] at hu
        exact hu
      · intro _
        exact ⟨_, rfl⟩
    · simp only [hu, if_false]
      constructor
      · rintro ⟨r, hr⟩
        exact absurd hr (by simp)
      · rintro (h | h)
        · exact absurd h hns
        · refine absurd ?_ hu
          rw [count_trim, count_eq_specUnits]
          exact h

theorem mkTurn_eq_spec (u a : ParsedMessage)
    (next? : Option (ParsedMessage × ParsedMessage)) :
    mkTurn u a next? =
      { line_index := u.line_index
        provisional := next?.isNone
        text := "[User] ".toList ++ u.text ++ "\n\n[Assistant] ".toList ++ a.text
          ++ (if toolSummaryOf a = [] then []
              else "\n\n[Tools] ".toList ++ List.intercalate " | ".toList (toolSummaryOf a))
          ++ (match next? with
              | some q => "\n\n[User] ".toList ++ q.1.text
              | none => [])
        tool_summary := toolSummaryOf a
        is_compaction_summary := u.is_compaction_summary } := by
  unfold mkTurn
  cases next? with
  | none =>
    by_cases hts : toolSummaryOf a = []
    · simp [hts, List.isEmpty_iff]
    · simp [hts, List.isEmpty_iff, List.append_assoc]
  | some q =>
    obtain ⟨nu, na⟩ := q
    by_cases hts : toolSummaryOf a = []
    · simp [hts, List.isEmpty_iff, List.append_assoc]
    · simp [hts, List.isEmpty_iff, List.append_assoc]

theorem specTurnAt_cons_succ (p : ParsedMessage × ParsedMessage)
    (rest : List (ParsedMessage × ParsedMessage)) (i : Nat) :
    specTurnAt (p :: rest) (i + 1) = specTurnAt rest i := by
  unfold specTurnAt
  simp

theorem buildTurns_getElem (pairs : List (ParsedMessage × ParsedMessage)) (i : Nat) :
    (buildTurns pairs)[i]? = specTurnAt pairs i := by
  induction pairs generalizing i with
  | nil => simp [buildTurns, specTurnAt]
  | cons p rest ih =>
    obtain ⟨u, a⟩ := p
    have hb : buildTurns ((u, a) :: rest) = mkTurn u a rest.head? :: buildTurns rest := rfl
    cases i with
    | zero =>
      rw [hb, List.getElem?_cons_zero, mkTurn_eq_spec]
      unfold specTurnAt
      simp [List.head?_eq_getElem?]
    | succ n =>
      rw [hb, List.getElem?_cons_succ, ih, specTurnAt_cons_succ]

theorem noAdjacent_collectPairs : ∀ l : List ParsedMessage,
    NoAdjacentPair l → collectPairs l = [] := by
  intro l
  induction l using collectPairs.induct with
  | case1 =>
    intro _
    rw [collectPairs]
  | case2 m =>
    intro _
    rw [collectPairs]
  | case3 m1 m2 rest hcond ih =>
    intro h
    exfalso
    rw [Bool.and_eq_true] at hcond
    exact h 0 ⟨⟨m1, by simp, hcond.1⟩, ⟨m2, by simp, hcond.2⟩⟩
  | case4 m1 m2 rest hcond ih =>
    intro h
    rw [collectPairs, if_neg hcond]
    refine ih fun i hi => h (i + 1) ?_
    obtain ⟨⟨mu, hmu, hu⟩, ⟨ma, hma, ha⟩⟩ := hi
    exact ⟨⟨mu, by simpa using hmu, hu⟩, ⟨ma, by simpa using hma, ha⟩⟩

/-- C2: `group_into_turns` emits one Turn per adjacent user-then-assistant
pair, with text `"[User] {user}\n\n[Assistant] {assistant}"`, followed by
`"\n\n[Tools] {s1} | {s2} | …"` when the assistant's tool-summary list is
non-empty, followed by `"\n\n[User] {next user}"` when a next pair exists;
exactly the last pair's Turn (which lacks the forward-context user block) is
marked provisional, and when no complete user-then-assistant pair exists no
Turns are emitted. -/
theorem claim_C2_group_into_turns (messages : List ParsedMessage) :
    (∀ i, (group_into_turns messages)[i]? = specTurnAt (collectPairs messages) i) ∧
      (NoAdjacentPair messages → group_into_turns messages = []) := by
  constructor
  · intro i
    exact buildTurns_getElem (collectPairs messages) i
  · intro h
    unfold group_into_turns
    rw [noAdjacent_collectPairs messages h]
    rfl

/-- Witness for C2: the characterization evaluated at a concrete two-message
sequence, and the empty emission discharged on the empty sequence. -/
theorem claim_C2_group_into_turns_witness :
    (group_into_turns
        [⟨0, "Q".toList, MessageRole.User, false⟩,
         ⟨1, "A".toList, MessageRole.Assistant ["Read(a.rs)".toList], false⟩])[0]? =
      specTurnAt (collectPairs
        [⟨0, "Q".toList, MessageRole.User, false⟩,
         ⟨1, "A".toList, MessageRole.Assistant ["Read(a.rs)".toList], false⟩]) 0 ∧
      group_into_turns [] = [] :=
  ⟨(claim_C2_group_into_turns _).1 0,
   (claim_C2_group_into_turns []).2 (fun i h => by
     rcases h.1 with ⟨m, hm, _⟩
     simp at hm)⟩

/-! C7 — path-normalization idempotence. -/

/-- C7 counterexample: normalization is not idempotent.  With both prefixes
`/p`, the path `/p//b` (doubled separator) normalizes to `/b`, which still
begins with `/`; renormalizing `/b` discards it as an absolute path outside
the project, so `normalize(normalize(p)) ≠ normalize(p)`. -/
theorem claim_C7_counterexample :
    normalize_path "/p//b".toList "/p".toList "/p".toList = some "/b".toList ∧
      normalize_path "/b".toList "/p".toList "/p".toList = none := by
  constructor <;> decide

/-- C7 amended: path normalization is idempotent on every result that does
not begin with `/`: whenever `normalize_path p project_dir project_root`
returns `some q` with `q` not starting with `/`, normalizing `q` again
returns `some q` (such a `q` is relative and passes through unchanged). -/
theorem claim_C7_normalize_path_idempotent (p d r q : Str)
    (_h : normalize_path p d r = some q) (hq : q.head? ≠ some '/') :
    normalize_path q d r = some q := by
  unfold normalize_path
  rw [if_pos hq]

/-- Witness for C7: `/p/src/a.rs` normalizes to `src/a.rs`, and normalizing
that again returns it unchanged. -/
theorem claim_C7_normalize_path_idempotent_witness :
    normalize_path "src/a.rs".toList "/p".toList "/p".toList = some "src/a.rs".toList :=
  claim_C7_normalize_path_idempotent "/p/src/a.rs".toList "/p".toList "/p".toList
    "src/a.rs".toList (by decide) (by decide)

/-! C9 — grapheme-aware truncation in tool summarization. -/

theorem byteLen_append (a b : Str) : byteLen (a ++ b) = byteLen a + byteLen b := by
  simp [byteLen]

theorem length_le_byteLen_gflat : ∀ s : GStr, (∀ cl ∈ s, cl ≠ []) →
    s.length ≤ byteLen (gflat s) := by
  intro s
  induction s with
  | nil =>
    intro _
    simp [gflat, byteLen]
  | cons cl cs ih =>
    intro h
    have h1 : 1 ≤ cl.length := List.length_pos.mpr (h cl (by simp))
    have h2 := length_le_byteLen cl
    have h3 := ih (fun d hd => h d (by simp [hd]))
    show (cl :: cs).length ≤ byteLen (cl ++ gflat cs)
    rw [byteLen_append]
    simp only [List.length_cons]
    omega

/-- C9 amended: `truncate` keeps a value with at most 80 grapheme clusters
unchanged and otherwise cuts it to its first 80 clusters with `...` appended —
counting clusters, not bytes or code points (stated for any budget `m` over
any cluster sequence with non-empty clusters, as produced by a segmenter); in
particular a Bash description of 100 copies of the Hangul syllable `가` is
summarized as 80 syllables followed by `...`.  (Only the free-text values —
pattern, description, first command/prompt line, args, url, query — pass
through `truncate`; see the counterexample for a path value that does not.) -/
theorem claim_C9_truncation (s : GStr) (m : Nat) (hcl : ∀ cl ∈ s, cl ≠ []) :
    (truncate s m = if s.length ≤ m then s else s.take m ++ [['.'], ['.'], ['.']]) ∧
      summarize_tool "Bash".toList
          (some [("description".toList, List.replicate 100 ['가'])]) =
        "Bash(desc=\"".toList ++ List.replicate 80 '가' ++ "...\")".toList := by
  constructor
  · unfold truncate
    split_ifs with h1 h2
    · rfl
    · exact absurd (le_trans (length_le_byteLen_gflat s hcl) h1) h2
    all_goals rfl
  · decide

/-- Witness for C9 at the concrete two-cluster value `ab` with budget 1. -/
theorem claim_C9_truncation_witness :
    (truncate [['a'], ['b']] 1 =
      if ([['a'], ['b']] : GStr).length ≤ 1 then ([['a'], ['b']] : GStr)
      else ([['a'], ['b']] : GStr).take 1 ++ [['.'], ['.'], ['.']]) ∧
      summarize_tool "Bash".toList
          (some [("description".toList, List.replicate 100 ['가'])]) =
        "Bash(desc=\"".toList ++ List.replicate 80 '가' ++ "...\")".toList :=
  claim_C9_truncation [['a'], ['b']] 1 (by decide)

/-- C9 counterexample: not all string values are truncated.  A `Read` whose
`file_path` is 100 copies of `가` is summarized with the full 100-cluster
value and no `...`, differing from what an 80-cluster truncation of the value
would produce. -/
theorem claim_C9_counterexample :
    summarize_tool "Read".toList
        (some [("file_path".toList, List.replicate 100 ['가'])]) =
      "Read(".toList ++ List.replicate 100 '가' ++ ")".toList ∧
      summarize_tool "Read".toList
          (some [("file_path".toList, List.replicate 100 ['가'])]) ≠
        "Read(".toList
          ++ gflat (truncate (List.replicate 100 ['가']) MAX_VALUE_GRAPHEMES)
          ++ ")".toList := by
  constructor <;> decide

/-! C10 — `upsert_session` and the compaction boundary. -/

/-- C10 counterexample: upserting with `last_compact_line_index = None` does
preserve the stored boundary, but it does not update "the other session
fields": `project_dir` is not in the `DO UPDATE SET` list, so the stored
`/a` survives although `/b` was supplied. -/
theorem claim_C10_counterexample :
    get_session (upsert_session
        ⟨[⟨"s1".toList, "t0".toList, "/a".toList, 100, none, some 50⟩],
          [], [], [], []⟩
        ⟨"s1".toList, "t1".toList, "/b".toList, 200, some 8, none⟩) "s1".toList =
      some ⟨"s1".toList, "t1".toList, "/a".toList, 200, some 8, some 50⟩ ∧
      ("/a".toList : Str) ≠ "/b".toList := by
  constructor <;> decide

theorem find?_map_key_update {l : List SessionRow} {sid : Str} {old : SessionRow}
    (f : SessionRow → SessionRow) (hf : ∀ r, (f r).session_id = r.session_id)
    (h : l.find? (fun r => r.session_id == sid) = some old) :
    (l.map (fun r => if r.session_id == sid then f r else r)).find?
      (fun r => r.session_id == sid) = some (f old) := by
  induction l with
  | nil => simp at h
  | cons r rs ih =>
    by_cases hr : (r.session_id == sid) = true
    · simp only [List.find?, hr] at h
      injection h with h
      subst h
      have hfa : ((f r).session_id == sid) = true := by
        rw [hf r]
        exact hr
      rw [List.map_cons, if_pos hr]
      simp only [List.find?, hfa]
    · have hrf : (r.session_id == sid) = false := by
        simpa using hr
      simp only [List.find?, hrf] at h
      rw [List.map_cons, if_neg hr]
      simp only [List.find?, hrf]
      exact ih h

/-- C10 amended: `upsert_session` can never clear a stored compaction
boundary.  For a stored row with `last_compact_line_index = some c`, the
upsert updates `transcript_path`, `last_line_index` and
`provisional_turn_start` from the supplied record, leaves `project_dir` (and
the key) unchanged, and overwrites `last_compact_line_index` only when a
non-`None` value is supplied — with `None` the stored `some c` survives. -/
theorem claim_C10_upsert_session_boundary (db : Db) (old new : SessionRow) (c : Nat)
    (hfind : get_session db new.session_id = some old)
    (hc : old.last_compact_line_index = some c) :
    get_session (upsert_session db new) new.session_id =
      some { session_id := old.session_id
             transcript_path := new.transcript_path
             project_dir := old.project_dir
             last_line_index := new.last_line_index
             provisional_turn_start := new.provisional_turn_start
             last_compact_line_index :=
               match new.last_compact_line_index with
               | some v => some v
               | none => some c } := by
  unfold get_session at hfind
  have hp := List.find?_some hfind
  have hmem := List.mem_of_find?_eq_some hfind
  unfold upsert_session
  rw [if_pos (by rw [List.any_eq_true]; exact ⟨old, hmem, hp⟩)]
  unfold get_session
  rw [find?_map_key_update (f := fun r =>
    { r with transcript_path := new.transcript_path,
             last_line_index := new.last_line_index,
             provisional_turn_start := new.provisional_turn_start,
             last_compact_line_index :=
               match new.last_compact_line_index with
               | some v => some v
               | none => r.last_compact_line_index }) (fun r => rfl) hfind]
  cases hn : new.last_compact_line_index with
  | none => simp [hn, hc]
  | some v => simp [hn]

/-- Witness for C10 at a concrete one-row table. -/
theorem claim_C10_upsert_session_boundary_witness :
    get_session (upsert_session
        ⟨[⟨"s1".toList, "t0".toList, "/a".toList, 100, none, some 50⟩],
          [], [], [], []⟩
        ⟨"s1".toList, "t1".toList, "/b".toList, 200, none, none⟩) "s1".toList =
      some { session_id := "s1".toList
             transcript_path := "t1".toList
             project_dir := "/a".toList
             last_line_index := 200
             provisional_turn_start := (none : Option Nat)
             last_compact_line_index :=
               match (none : Option Nat) with
               | some v => some v
               | none => some 50 } :=
  claim_C10_upsert_session_boundary
    ⟨[⟨"s1".toList, "t0".toList, "/a".toList, 100, none, some 50⟩], [], [], [], []⟩
    ⟨"s1".toList, "t0".toList, "/a".toList, 100, none, some 50⟩
    ⟨"s1".toList, "t1".toList, "/b".toList, 200, none, none⟩ 50 (by decide) (by decide)

/-! C3 — the in-context filter of the two search queries. -/

theorem in_context_keep_some_iff (s : Str) (b : Option Nat) (sid : Str) (line : Nat) :
    in_context_keep (some s) b sid line = true ↔
      sid ≠ s ∨ ∃ bv, b = some bv ∧ line ≤ bv := by
  unfold in_context_keep
  cases b with
  | none => simp
  | some bv => simp

theorem mem_insertByCountDesc {cnt : (Str × Nat) → Nat} {x y : Str × Nat}
    {l : List (Str × Nat)} : y ∈ insertByCountDesc cnt x l ↔ y = x ∨ y ∈ l := by
  induction l with
  | nil => simp [insertByCountDesc]
  | cons z zs ih =>
    rw [insertByCountDesc]
    by_cases hz : cnt z < cnt x
    · simp [if_pos hz, List.mem_cons]
    · simp only [if_neg hz, List.mem_cons, ih]
      tauto

theorem mem_sortByCountDesc {cnt : (Str × Nat) → Nat} {y : Str × Nat} :
    ∀ {l : List (Str × Nat)}, y ∈ sortByCountDesc cnt l ↔ y ∈ l := by
  intro l
  induction l with
  | nil => simp [sortByCountDesc]
  | cons z zs ih =>
    rw [sortByCountDesc, mem_insertByCountDesc]
    simp only [List.mem_cons, ih]

/-- C3: in both `search_memories` and `search_by_file_path`, a stored row of
the caller's session `s` survives the in-context filter only when the
supplied compaction boundary is set and the row's line index is at or below
it; rows of other sessions are never removed by this filter; and a scan whose
rows all lie in the caller's session strictly above the boundary (or with no
boundary set) filters to the empty result. -/
theorem claim_C3_in_context_filter :
    (∀ (scan : List ScanRow) (s : Str) (b : Option Nat) (r : ScanRow),
      r ∈ search_memories scan (some s) b → r.row.session_id = s →
        ∃ bv, b = some bv ∧ r.row.line_index ≤ bv) ∧
    (∀ (scan : List ScanRow) (s : Str) (b : Option Nat) (r : ScanRow),
      r ∈ scan → r.row.session_id ≠ s → r ∈ search_memories scan (some s) b) ∧
    (∀ (db : Db) (paths : List Str) (s : Str) (b : Option Nat) (k : Nat)
        (q : Str × Nat),
      q ∈ search_by_file_path db paths (some s) b k → q.1 = s →
        ∃ bv, b = some bv ∧ q.2 ≤ bv) ∧
    (∀ (db : Db) (paths : List Str) (s : Str) (b : Option Nat) (r : MentionRow),
      r ∈ db.file_mentions → r.session_id ≠ s → paths.contains r.file_path = true →
        r ∈ sbfp_rows db paths (some s) b) ∧
    (∀ (scan : List ScanRow) (s : Str) (b : Option Nat),
      (∀ r ∈ scan, r.row.session_id = s ∧ ∀ bv, b = some bv → bv < r.row.line_index) →
        search_memories scan (some s) b = []) := by
  refine ⟨?_, ?_, ?_, ?_, ?_⟩
  · intro scan s b r hr hsid
    have := (List.mem_filter.mp hr).2
    rcases (in_context_keep_some_iff s b _ _).mp this with h | h
    · exact absurd hsid h
    · exact h
  · intro scan s b r hr hne
    exact List.mem_filter.mpr ⟨hr, (in_context_keep_some_iff s b _ _).mpr (Or.inl hne)⟩
  · intro db paths s b k q hq hsid
    unfold search_by_file_path at hq
    by_cases hp : paths.isEmpty
    · rw [if_pos hp] at hq
      simp at hq
    · rw [if_neg hp] at hq
      have h1 := List.mem_of_mem_take hq
      have h2 := mem_sortByCountDesc.mp h1
      have h3 := List.mem_dedup.mp h2
      obtain ⟨row, hrow, hkey⟩ := List.mem_map.mp h3
      have h4 := (List.mem_filter.mp hrow).2
      rw [Bool.and_eq_true] at h4
      have h5 := (in_context_keep_some_iff s b _ _).mp h4.2
      rcases h5 with h | h
      · exact absurd (by rw [← hkey] at hsid; exact hsid) h
      · obtain ⟨bv, hbv, hle⟩ := h
        exact ⟨bv, hbv, by rw [← hkey]; exact hle⟩
  · intro db paths s b r hr hne hpath
    exact List.mem_filter.mpr ⟨hr, by
      rw [Bool.and_eq_true]
      exact ⟨hpath, (in_context_keep_some_iff s b _ _).mpr (Or.inl hne)⟩⟩
  · intro scan s b hall
    unfold search_memories
    rw [List.filter_eq_nil_iff]
    intro r hr
    obtain ⟨hsid, hb⟩ := hall r hr
    intro hkeep
    rcases (in_context_keep_some_iff s b _ _).mp hkeep with h | h
    · exact h hsid
    · obtain ⟨bv, hbv, hle⟩ := h
      exact absurd hle (by have := hb bv hbv; omega)

/-- Witness for C3 at concrete one-row tables: a pre-boundary same-session
row passes, a cross-session row is kept, a same-session row above the
boundary filters to nothing. -/
theorem claim_C3_in_context_filter_witness :
    (∃ bv, (some 5 : Option Nat) = some bv ∧ 2 ≤ bv) ∧
      (⟨⟨"s1".toList, 2, 0, "turn".toList, "t".toList, []⟩, 0⟩ : ScanRow) ∈
        search_memories [⟨⟨"s1".toList, 2, 0, "turn".toList, "t".toList, []⟩, 0⟩]
          (some "s2".toList) none ∧
      search_memories [⟨⟨"s1".toList, 8, 0, "turn".toList, "t".toList, []⟩, 0⟩]
        (some "s1".toList) (some 5) = [] :=
  ⟨claim_C3_in_context_filter.1
      [⟨⟨"s1".toList, 2, 0, "turn".toList, "t".toList, []⟩, 0⟩]
      "s1".toList (some 5) ⟨⟨"s1".toList, 2, 0, "turn".toList, "t".toList, []⟩, 0⟩
      (by decide) (by decide),
   claim_C3_in_context_filter.2.1
      [⟨⟨"s1".toList, 2, 0, "turn".toList, "t".toList, []⟩, 0⟩]
      "s2".toList none ⟨⟨"s1".toList, 2, 0, "turn".toList, "t".toList, []⟩, 0⟩
      (by decide) (by decide),
   claim_C3_in_context_filter.2.2.2.2
      [⟨⟨"s1".toList, 8, 0, "turn".toList, "t".toList, []⟩, 0⟩]
      "s1".toList (some 5)
      (by
        intro r hr
        rw [List.mem_singleton] at hr
        subst hr
        refine ⟨rfl, ?_⟩
        intro bv hbv
        injection hbv with h
        subst h
        decide)⟩

/-! Database-table preservation facts used by C5, C6 and C4. -/

theorem sessions_insert_pr_link (db : Db) (sid : Str) (n : Nat) (u r t : Str) :
    (insert_pr_link db sid n u r t).sessions = db.sessions := by
  unfold insert_pr_link
  split <;> rfl

theorem sessions_pr_fold (sid : Str) :
    ∀ (l : List (Nat × Str × Str × Str)) (db : Db),
      (l.foldl (fun db q => insert_pr_link db sid q.1 q.2.1 q.2.2.1 q.2.2.2) db).sessions
        = db.sessions := by
  intro l
  induction l with
  | nil =>
    intro db
    rfl
  | cons q qs ih =>
    intro db
    rw [List.foldl_cons, ih, sessions_insert_pr_link]

theorem sessions_insert_memory (db : Db) (sid : Str) (l c : Nat) (ro co : Str)
    (e : List ℚ) : (insert_memory db sid l c ro co e).sessions = db.sessions := rfl

theorem sessions_insert_file_mention (db : Db) (sid : Str) (l : Nat) (p t : Str) :
    (insert_file_mention db sid l p t).sessions = db.sessions := by
  unfold insert_file_mention
  split <;> rfl

theorem sessions_delete_memories_at (db : Db) (sid : Str) (l : Nat) :
    (delete_memories_at db sid l).sessions = db.sessions := rfl

theorem sessions_delete_file_mentions_at (db : Db) (sid : Str) (l : Nat) :
    (delete_file_mentions_at db sid l).sessions = db.sessions := rfl

theorem sessions_chunk_fold (sid : Str) (line : Nat) (role : Str)
    (embed : Str → List ℚ) :
    ∀ (l : List (Nat × Str)) (db : Db),
      (l.foldl (fun db p => insert_memory db sid line p.1 role p.2 (embed p.2)) db).sessions
        = db.sessions := by
  intro l
  induction l with
  | nil =>
    intro db
    rfl
  | cons q qs ih =>
    intro db
    rw [List.foldl_cons, ih, sessions_insert_memory]

theorem sessions_mention_fold (sid : Str) (line : Nat) :
    ∀ (l : List (Str × Str)) (db : Db),
      (l.foldl (fun db fp => insert_file_mention db sid line fp.1 fp.2) db).sessions
        = db.sessions := by
  intro l
  induction l with
  | nil =>
    intro db
    rfl
  | cons q qs ih =>
    intro db
    rw [List.foldl_cons, ih, sessions_insert_file_mention]

theorem sessions_atmention_fold (sid : Str) (line : Nat) :
    ∀ (l : List Str) (db : Db),
      (l.foldl (fun db p => insert_file_mention db sid line p "mention".toList) db).sessions
        = db.sessions := by
  intro l
  induction l with
  | nil =>
    intro db
    rfl
  | cons q qs ih =>
    intro db
    rw [List.foldl_cons, ih, sessions_insert_file_mention]

theorem sessions_ingestTurn (chunkTurn : Turn → List Str) (embed : Str → List ℚ)
    (sid pd pr : Str) (st : Db × Nat × Option Nat) (turn : Turn) :
    (ingestTurn chunkTurn embed sid pd pr st turn).1.sessions = st.1.sessions := by
  unfold ingestTurn
  by_cases hc : (chunkTurn turn).isEmpty
  · rw [if_pos hc]
  · rw [if_neg hc]
    simp only [sessions_atmention_fold, sessions_mention_fold, sessions_chunk_fold]

theorem sessions_turns_fold (chunkTurn : Turn → List Str) (embed : Str → List ℚ)
    (sid pd pr : Str) :
    ∀ (turns : List Turn) (st : Db × Nat × Option Nat),
      ((turns.foldl (ingestTurn chunkTurn embed sid pd pr) st).1).sessions
        = st.1.sessions := by
  intro turns
  induction turns with
  | nil =>
    intro st
    rfl
  | cons turn rest ih =>
    intro st
    rw [List.foldl_cons, ih, sessions_ingestTurn]

theorem find?_append_of_none {l m : List α} {p : α → Bool} (h : l.find? p = none) :
    (l ++ m).find? p = m.find? p := by
  induction l with
  | nil => rfl
  | cons a l' ih =>
    cases hp : p a with
    | true =>
      exfalso
      rw [List.find?_cons_of_pos _ hp] at h
      exact Option.noConfusion h
    | false =>
      rw [List.find?_cons_of_neg _ (by simp [hp])] at h
      rw [List.cons_append, List.find?_cons_of_neg _ (by simp [hp])]
      exact ih h

theorem get_session_upsert_fresh {db : Db} {s : SessionRow}
    (h : get_session db s.session_id = none) :
    get_session (upsert_session db s) s.session_id = some s := by
  unfold get_session at h ⊢
  rw [List.find?_eq_none] at h
  unfold upsert_session
  rw [if_neg (by
    intro hcon
    rw [List.any_eq_true] at hcon
    obtain ⟨r, hr, hpr⟩ := hcon
    exact h r hr hpr)]
  show (db.sessions ++ [s]).find? (fun r => r.session_id == s.session_id) = some s
  rw [find?_append_of_none (List.find?_eq_none.mpr h)]
  simp [List.find?]

/-! C5 — behaviour when messages parse but no turn forms. -/

/-- C5 counterexample: a transcript whose only line parses to a user message
produces no turns; `run_ingest` returns successfully with the stored
`last_line_index` equal to 0 — not advanced past the last seen (parsed) line,
which is line 0. -/
theorem claim_C5_counterexample :
    parseMessages [LineKind.msg ⟨"only user".toList, MessageRole.User, false⟩] 0 ≠ [] ∧
      maxLine (parseMessages
        [LineKind.msg ⟨"only user".toList, MessageRole.User, false⟩] 0) = 0 ∧
      get_session (run_ingest (fun t => [t.text]) (fun _ => [1]) emptyDb
          "s1".toList "tp".toList "/p".toList "/p".toList
          [LineKind.msg ⟨"only user".toList, MessageRole.User, false⟩]) "s1".toList =
        some ⟨"s1".toList, "tp".toList, "/p".toList, 0, none, none⟩ := by
  refine ⟨by decide, by decide, by decide⟩

/-- C5 amended: when `run_ingest` parses at least one message but no complete
turn forms, it returns successfully WITHOUT advancing the stored
`last_line_index`: an existing session row is left entirely unchanged, and
for an unknown session only the placeholder row (whose `last_line_index` is
the read offset 0) is inserted. -/
theorem claim_C5_no_turns_no_advance (chunkTurn : Turn → List Str)
    (embed : Str → List ℚ) (db : Db) (sid tp pd pr : Str) (t : Transcript) :
    (∀ s : SessionRow, get_session db sid = some s →
      parseMessages t (s.provisional_turn_start.getD s.last_line_index) ≠ [] →
      group_into_turns
        (parseMessages t (s.provisional_turn_start.getD s.last_line_index)) = [] →
      get_session (run_ingest chunkTurn embed db sid tp pd pr t) sid = some s) ∧
    (get_session db sid = none →
      parseMessages t 0 ≠ [] →
      group_into_turns (parseMessages t 0) = [] →
      get_session (run_ingest chunkTurn embed db sid tp pd pr t) sid =
        some ⟨sid, tp, pd, 0, none, none⟩) := by
  constructor
  · intro s hs hmsg hturns
    unfold run_ingest
    rw [hs]
    simp only
    rw [if_neg (by
      rw [Bool.and_eq_true]
      intro ⟨h1, _⟩
      exact hmsg (List.isEmpty_iff.mp h1))]
    rw [hturns]
    simp only [List.isEmpty_nil, if_true, Option.isNone_some, Bool.false_eq_true,
      if_false]
    unfold get_session
    rw [sessions_pr_fold]
    exact hs
  · intro hs hmsg hturns
    unfold run_ingest
    rw [hs]
    simp only [Option.getD_none]
    rw [if_neg (by
      rw [Bool.and_eq_true]
      intro ⟨h1, _⟩
      exact hmsg (List.isEmpty_iff.mp h1))]
    rw [hturns]
    simp only [List.isEmpty_nil, if_true, Option.isNone_none, if_true]
    show get_session ((parsePrFrom t 0 0).foldl _
      (upsert_session db ⟨sid, tp, pd, 0, none, none⟩)) sid = _
    unfold get_session
    rw [sessions_pr_fold]
    exact get_session_upsert_fresh (s := ⟨sid, tp, pd, 0, none, none⟩) hs

/-- Witness for C5: a two-line transcript ending in a lone user line, ingested
after its first two lines, leaves the session row unchanged; and the fresh
one-user-line case inserts the placeholder. -/
theorem claim_C5_no_turns_no_advance_witness :
    get_session (run_ingest (fun t => [t.text]) (fun _ => [1]) emptyDb
        "s1".toList "tp".toList "/p".toList "/p".toList
        [LineKind.msg ⟨"only user".toList, MessageRole.User, false⟩]) "s1".toList =
      some ⟨"s1".toList, "tp".toList, "/p".toList, 0, none, none⟩ :=
  (claim_C5_no_turns_no_advance (fun t => [t.text]) (fun _ => [1]) emptyDb
      "s1".toList "tp".toList "/p".toList "/p".toList
      [LineKind.msg ⟨"only user".toList, MessageRole.User, false⟩]).2
    (by decide) (by decide) (by decide)

/-! C6 — raw entries are not persisted. -/

theorem entries_insert_pr_link (db : Db) (sid : Str) (n : Nat) (u r t : Str) :
    (insert_pr_link db sid n u r t).entries = db.entries := by
  unfold insert_pr_link
  split <;> rfl

theorem entries_pr_fold (sid : Str) :
    ∀ (l : List (Nat × Str × Str × Str)) (db : Db),
      (l.foldl (fun db q => insert_pr_link db sid q.1 q.2.1 q.2.2.1 q.2.2.2) db).entries
        = db.entries := by
  intro l
  induction l with
  | nil =>
    intro db
    rfl
  | cons q qs ih =>
    intro db
    rw [List.foldl_cons, ih, entries_insert_pr_link]

theorem entries_insert_file_mention (db : Db) (sid : Str) (l : Nat) (p t : Str) :
    (insert_file_mention db sid l p t).entries = db.entries := by
  unfold insert_file_mention
  split <;> rfl

theorem entries_upsert_session (db : Db) (s : SessionRow) :
    (upsert_session db s).entries = db.entries := by
  unfold upsert_session
  split <;> rfl

theorem entries_delete_memories_at (db : Db) (sid : Str) (l : Nat) :
    (delete_memories_at db sid l).entries = db.entries := rfl

theorem entries_delete_file_mentions_at (db : Db) (sid : Str) (l : Nat) :
    (delete_file_mentions_at db sid l).entries = db.entries := rfl

theorem entries_chunk_fold (sid : Str) (line : Nat) (role : Str)
    (embed : Str → List ℚ) :
    ∀ (l : List (Nat × Str)) (db : Db),
      (l.foldl (fun db p => insert_memory db sid line p.1 role p.2 (embed p.2)) db).entries
        = db.entries := by
  intro l
  induction l with
  | nil =>
    intro db
    rfl
  | cons q qs ih =>
    intro db
    rw [List.foldl_cons, ih]
    rfl

theorem entries_mention_fold (sid : Str) (line : Nat) :
    ∀ (l : List (Str × Str)) (db : Db),
      (l.foldl (fun db fp => insert_file_mention db sid line fp.1 fp.2) db).entries
        = db.entries := by
  intro l
  induction l with
  | nil =>
    intro db
    rfl
  | cons q qs ih =>
    intro db
    rw [List.foldl_cons, ih, entries_insert_file_mention]

theorem entries_atmention_fold (sid : Str) (line : Nat) :
    ∀ (l : List Str) (db : Db),
      (l.foldl (fun db p => insert_file_mention db sid line p "mention".toList) db).entries
        = db.entries := by
  intro l
  induction l with
  | nil =>
    intro db
    rfl
  | cons q qs ih =>
    intro db
    rw [List.foldl_cons, ih, entries_insert_file_mention]

theorem entries_ingestTurn (chunkTurn : Turn → List Str) (embed : Str → List ℚ)
    (sid pd pr : Str) (st : Db × Nat × Option Nat) (turn : Turn) :
    (ingestTurn chunkTurn embed sid pd pr st turn).1.entries = st.1.entries := by
  unfold ingestTurn
  by_cases hc : (chunkTurn turn).isEmpty
  · rw [if_pos hc]
  · rw [if_neg hc]
    simp only [entries_atmention_fold, entries_mention_fold, entries_chunk_fold]

theorem entries_turns_fold (chunkTurn : Turn → List Str) (embed : Str → List ℚ)
    (sid pd pr : Str) :
    ∀ (turns : List Turn) (st : Db × Nat × Option Nat),
      ((turns.foldl (ingestTurn chunkTurn embed sid pd pr) st).1).entries
        = st.1.entries := by
  intro turns
  induction turns with
  | nil =>
    intro st
    rfl
  | cons turn rest ih =>
    intro st
    rw [List.foldl_cons, ih, entries_ingestTurn]

theorem entries_run_ingest (chunkTurn : Turn → List Str) (embed : Str → List ℚ)
    (db : Db) (sid tp pd pr : Str) (t : Transcript) :
    (run_ingest chunkTurn embed db sid tp pd pr t).entries = db.entries := by
  unfold run_ingest
  simp only
  split
  · rfl
  · split <;> (repeat' split) <;>
      simp only [entries_upsert_session, entries_turns_fold,
        entries_delete_file_mentions_at, entries_delete_memories_at,
        entries_pr_fold]

/-- C6: the claim that every `run_ingest` invocation inserts one raw Entry
per accepted non-noise transcript line into an `entries` store is right about
the parser (which produces exactly those raw entries, documented as destined
for the `entries` table) but wrong about the code: no schema migration
creates an `entries` table, `queries.rs` has no insert for it, and
`run_ingest` drops the parser's `raw_entries` output.  Evaluated at a
two-line transcript: two raw entries are parsed, yet after ingest the entries
store is empty — and in general ingest never writes it. -/
theorem claim_C6_raw_entries_not_persisted :
    parseRawCount [LineKind.msg ⟨"Hi".toList, MessageRole.User, false⟩,
        LineKind.msg ⟨"Hello".toList, MessageRole.Assistant [], false⟩] 0 0 = 2 ∧
      (run_ingest (fun t => [t.text]) (fun _ => [1]) emptyDb "s1".toList "tp".toList
          "/p".toList "/p".toList
          [LineKind.msg ⟨"Hi".toList, MessageRole.User, false⟩,
           LineKind.msg ⟨"Hello".toList, MessageRole.Assistant [], false⟩]).entries = [] ∧
      (∀ (ct : Turn → List Str) (em : Str → List ℚ) (db : Db) (sid tp pd pr : Str)
          (t : Transcript),
        (run_ingest ct em db sid tp pd pr t).entries = db.entries) := by
  refine ⟨by decide, ?_, fun ct em db sid tp pd pr t => entries_run_ingest ct em db sid tp pd pr t⟩
  rw [entries_run_ingest]
  rfl

/-! ### C8: provenance of extracted file-mention paths -/

theorem isPre_isInfix {l m : List α} (h : l <+: m) : l <:+: m := by
  obtain ⟨t, ht⟩ := h
  exact ⟨[], t, by simpa using ht⟩

theorem isSuf_isInfix {l m : List α} (h : l <:+ m) : l <:+: m := by
  obtain ⟨u, hu⟩ := h
  exact ⟨u, [], by simpa using hu⟩

theorem isInfix_trans {a b c : List α} (h1 : a <:+: b) (h2 : b <:+: c) : a <:+: c := by
  obtain ⟨u, v, huv⟩ := h1
  obtain ⟨s, t, hst⟩ := h2
  subst huv
  subst hst
  exact ⟨s ++ u, v ++ t, by simp [List.append_assoc]⟩

theorem pre_suffix_isInfix {l x s : List α} (h1 : l <+: x) (h2 : x <:+ s) : l <:+: s := by
  obtain ⟨t, ht⟩ := h1
  obtain ⟨u, hu⟩ := h2
  exact ⟨u, t, by rw [List.append_assoc, ht, hu]⟩

theorem suf_pre_isInfix {l x s : List α} (h1 : l <:+ x) (h2 : x <+: s) : l <:+: s := by
  obtain ⟨u, hu⟩ := h1
  obtain ⟨t, ht⟩ := h2
  exact ⟨u, t, by rw [hu, ht]⟩

theorem dropWhile_isSuffix (p : α → Bool) : ∀ l : List α, l.dropWhile p <:+ l := by
  intro l
  induction l with
  | nil => exact ⟨[], rfl⟩
  | cons a l' ih =>
    rw [List.dropWhile_cons]
    by_cases hp : p a
    · rw [if_pos hp]
      obtain ⟨u, hu⟩ := ih
      exact ⟨a :: u, by rw [List.cons_append, hu]⟩
    · rw [if_neg hp]

theorem rev_suffix_to_pre {l m : List α} (h : l <:+ m) : l.reverse <+: m.reverse := by
  obtain ⟨u, hu⟩ := h
  exact ⟨u.reverse, by rw [← List.reverse_append, hu]⟩

theorem take_isPre (n : Nat) (l : List α) : l.take n <+: l :=
  ⟨l.drop n, List.take_append_drop n l⟩

theorem drop_isSuffix (n : Nat) (l : List α) : l.drop n <:+ l :=
  ⟨l.take n, List.take_append_drop n l⟩

theorem takeWhile_isPre (p : α → Bool) (l : List α) : l.takeWhile p <+: l :=
  ⟨l.dropWhile p, List.takeWhile_append_dropWhile p l⟩

theorem trimEndMatches_isPre (p : Char → Bool) (s : Str) : trimEndMatches p s <+: s := by
  show (s.reverse.dropWhile p).reverse <+: s
  have h := rev_suffix_to_pre (dropWhile_isSuffix p s.reverse)
  rwa [List.reverse_reverse] at h

theorem trimMatches_isInfix (p : Char → Bool) (s : Str) : trimMatches p s <:+: s := by
  have h1 : trimMatches p s <+: s.dropWhile p := trimEndMatches_isPre p (s.dropWhile p)
  exact pre_suffix_isInfix h1 (dropWhile_isSuffix p s)

theorem trim_isInfix (s : Str) : trim s <:+: s := by
  have h1 : trim s <+: s.dropWhile isRustWs :=
    trimEndMatches_isPre isRustWs (s.dropWhile isRustWs)
  exact pre_suffix_isInfix h1 (dropWhile_isSuffix isRustWs s)

theorem hasDS_cons (a : Char) (xs : Str) :
    hasDoubleSlash (a :: xs) =
      ((match xs.head? with
        | some b => a == '/' && b == '/'
        | none => false) || hasDoubleSlash xs) := by
  cases xs with
  | nil => rfl
  | cons b rest => rfl

theorem hasDS_append_right (l m : Str) (h : hasDoubleSlash m = true) :
    hasDoubleSlash (l ++ m) = true := by
  induction l with
  | nil => simpa using h
  | cons a l' ih =>
    rw [List.cons_append, hasDS_cons, ih]
    simp

theorem hasDS_append_left (l m : Str) (h : hasDoubleSlash l = true) :
    hasDoubleSlash (l ++ m) = true := by
  induction l with
  | nil => simp [hasDoubleSlash] at h
  | cons a l' ih =>
    rw [hasDS_cons] at h
    rw [List.cons_append, hasDS_cons]
    rw [Bool.or_eq_true] at h ⊢
    rcases h with h | h
    · left
      cases l' with
      | nil => simp at h
      | cons b rest => simpa using h
    · right
      exact ih h

theorem hasDS_of_isInfix {l m : Str} (hinf : l <:+: m) (h : hasDoubleSlash l = true) :
    hasDoubleSlash m = true := by
  obtain ⟨u, v, huv⟩ := hinf
  subst huv
  rw [List.append_assoc]
  exact hasDS_append_right u (l ++ v) (hasDS_append_left l v h)

theorem mem_wordsAux_isInfix :
    ∀ (s acc t : Str), t ∈ wordsAux s acc → t <:+: (acc.reverse ++ s) := by
  intro s
  induction s with
  | nil =>
    intro acc t ht
    rw [wordsAux] at ht
    by_cases ha : acc.isEmpty
    · rw [if_pos ha] at ht
      simp at ht
    · rw [if_neg ha] at ht
      rw [List.mem_singleton] at ht
      subst ht
      exact isPre_isInfix ⟨[], by simp⟩
  | cons c cs ih =>
    intro acc t ht
    rw [wordsAux] at ht
    by_cases hc : isRustWs c
    · rw [if_pos hc] at ht
      by_cases ha : acc.isEmpty
      · rw [if_pos ha] at ht
        have h := ih [] t ht
        simp only [List.reverse_nil, List.nil_append] at h
        exact isInfix_trans h (isSuf_isInfix ⟨acc.reverse ++ [c], by simp⟩)
      · rw [if_neg ha] at ht
        rw [List.mem_cons] at ht
        rcases ht with ht | ht
        · subst ht
          exact isPre_isInfix ⟨c :: cs, rfl⟩
        · have h := ih [] t ht
          simp only [List.reverse_nil, List.nil_append] at h
          exact isInfix_trans h (isSuf_isInfix ⟨acc.reverse ++ [c], by simp⟩)
    · rw [if_neg hc] at ht
      have h := ih (c :: acc) t ht
      rw [List.reverse_cons] at h
      simpa [List.append_assoc] using h

theorem mem_words_isInfix {s t : Str} (h : t ∈ words s) : t <:+: s := by
  have h2 := mem_wordsAux_isInfix s [] t h
  simpa using h2

theorem mem_insertSorted (x y : Str) :
    ∀ (l : List Str), y ∈ insertSorted x l → y = x ∨ y ∈ l := by
  intro l
  induction l with
  | nil =>
    intro h
    simp only [insertSorted, List.mem_singleton] at h
    exact Or.inl h
  | cons z zs ih =>
    intro h
    simp only [insertSorted] at h
    by_cases hlt : lexLt z x
    · rw [if_pos hlt] at h
      rw [List.mem_cons] at h
      rcases h with h | h
      · exact Or.inr (by simp [h])
      · rcases ih h with h | h
        · exact Or.inl h
        · exact Or.inr (List.mem_cons_of_mem z h)
    · rw [if_neg hlt] at h
      rw [List.mem_cons] at h
      rcases h with h | h
      · exact Or.inl h
      · exact Or.inr h

theorem mem_sortStrs (y : Str) : ∀ (l : List Str), y ∈ sortStrs l → y ∈ l := by
  intro l
  induction l with
  | nil =>
    intro h
    simp [sortStrs] at h
  | cons x xs ih =>
    intro h
    simp only [sortStrs] at h
    rcases mem_insertSorted x y (sortStrs xs) h with h | h
    · simp [h]
    · exact List.mem_cons_of_mem x (ih h)

theorem mem_dedupAdj (y : Str) : ∀ (l : List Str), y ∈ dedupAdj l → y ∈ l := by
  intro l
  induction l with
  | nil =>
    intro h
    simp [dedupAdj] at h
  | cons x xs ih =>
    intro h
    cases xs with
    | nil =>
      simp only [dedupAdj, List.mem_singleton] at h
      simp [h]
    | cons z rest =>
      simp only [dedupAdj] at h
      by_cases hxz : x = z
      · rw [if_pos hxz] at h
        exact List.mem_cons_of_mem x (ih h)
      · rw [if_neg hxz] at h
        rw [List.mem_cons] at h
        rcases h with h | h
        · simp [h]
        · exact List.mem_cons_of_mem x (ih h)

theorem extract_quoted_value_isInfix {args key v : Str}
    (h : extract_quoted_value args key = some v) : v <:+: args := by
  unfold extract_quoted_value at h
  cases hf : findSub (key ++ "=\"".toList) args with
  | none =>
    simp only [hf] at h
    exact Option.noConfusion h
  | some idx =>
    simp only [hf] at h
    cases hc : findCloseQuote (args.drop (idx + (key ++ "=\"".toList).length)) false with
    | none =>
      simp only [hc] at h
      exact Option.noConfusion h
    | some n =>
      simp only [hc, Option.map] at h
      injection h with h
      subst h
      exact pre_suffix_isInfix
        (take_isPre n (args.drop (idx + (key ++ "=\"".toList).length)))
        (drop_isSuffix _ args)

theorem tryStrip_ne_nil : ∀ (pres : List Str) (p q : Str),
    tryStripPrefixes pres p = some q → q ≠ [] := by
  intro pres
  induction pres with
  | nil =>
    intro p q h
    simp [tryStripPrefixes] at h
  | cons pre rest ih =>
    intro p q h
    simp only [tryStripPrefixes] at h
    cases hs : stripLeading (stripTrailingSlash pre) p with
    | none =>
      simp only [hs] at h
      exact ih p q h
    | some rel =>
      simp only [hs] at h
      by_cases hr : stripLeadingSlash rel = []
      · rw [if_pos hr] at h
        exact Option.noConfusion h
      · rw [if_neg hr] at h
        injection h with h
        exact h ▸ hr

theorem normalize_path_ne_nil {p d r q : Str} (h : normalize_path p d r = some q)
    (hp : p ≠ []) : q ≠ [] := by
  unfold normalize_path at h
  by_cases hh : p.head? ≠ some '/'
  · rw [if_pos hh] at h
    injection h with h
    exact h ▸ hp
  · rw [if_neg hh] at h
    exact tryStrip_ne_nil _ p q h

theorem tryStrip_no_slash : ∀ (pres : List Str) (p q : Str),
    tryStripPrefixes pres p = some q → hasDoubleSlash p = false →
    q.head? ≠ some '/' := by
  intro pres
  induction pres with
  | nil =>
    intro p q h _
    simp [tryStripPrefixes] at h
  | cons pre rest ih =>
    intro p q h hds
    simp only [tryStripPrefixes] at h
    cases hs : stripLeading (stripTrailingSlash pre) p with
    | none =>
      simp only [hs] at h
      exact ih p q h hds
    | some rel =>
      simp only [hs] at h
      have hrel : rel <:+ p := by
        unfold stripLeading at hs
        by_cases hpref : (stripTrailingSlash pre).isPrefixOf p
        · rw [if_pos hpref] at hs
          injection hs with hs
          exact hs ▸ drop_isSuffix _ p
        · rw [if_neg hpref] at hs
          exact Option.noConfusion hs
      cases rel with
      | nil =>
        rw [show stripLeadingSlash ([] : Str) = [] from rfl, if_pos rfl] at h
        exact Option.noConfusion h
      | cons c r2 =>
        rw [show stripLeadingSlash (c :: r2) = if c = '/' then r2 else c :: r2 from rfl] at h
        by_cases hc : c = '/'
        · rw [if_pos hc] at h
          by_cases hr : r2 = []
          · rw [if_pos hr] at h
            exact Option.noConfusion h
          · rw [if_neg hr] at h
            injection h with h
            subst h
            intro hq
            cases r2 with
            | nil => exact hr rfl
            | cons c2 r3 =>
              simp only [List.head?_cons, Option.some.injEq] at hq
              subst hq
              subst hc
              have hdd : hasDoubleSlash ('/' :: '/' :: r3) = true := by
                simp [hasDoubleSlash]
              have h2 := hasDS_of_isInfix (isSuf_isInfix hrel) hdd
              rw [hds] at h2
              exact Bool.noConfusion h2
        · rw [if_neg hc] at h
          rw [if_neg (by simp)] at h
          injection h with h
          subst h
          intro hq
          simp only [List.head?_cons, Option.some.injEq] at hq
          exact hc hq

theorem normalize_path_no_slash {p d r q : Str} (h : normalize_path p d r = some q)
    (hds : hasDoubleSlash p = false) : q.head? ≠ some '/' := by
  unfold normalize_path at h
  by_cases hh : p.head? ≠ some '/'
  · rw [if_pos hh] at h
    injection h with h
    exact h ▸ hh
  · rw [if_neg hh] at h
    exact tryStrip_no_slash _ p q h hds

theorem mem_extract_at_mentions {text pd pr q : Str}
    (h : q ∈ extract_at_mentions text pd pr) :
    ∃ cand : Str, cand ≠ [] ∧ cand <:+: text ∧ normalize_path cand pd pr = some q := by
  unfold extract_at_mentions at h
  have h1 := mem_sortStrs q _ (mem_dedupAdj q _ h)
  rw [List.mem_filterMap] at h1
  obtain ⟨token, htok, hmap⟩ := h1
  cases token with
  | nil => simp [atMentionOf] at hmap
  | cons a path =>
    simp only [atMentionOf] at hmap
    by_cases ha : a = '@'
    · rw [if_pos ha] at hmap
      by_cases hp : trimEndMatches atMentionPunct path = []
      · rw [if_pos hp] at hmap
        exact Option.noConfusion hmap
      · rw [if_neg hp] at hmap
        refine ⟨trimEndMatches atMentionPunct path, hp, ?_, hmap⟩
        have h2 : trimEndMatches atMentionPunct path <+: path :=
          trimEndMatches_isPre atMentionPunct path
        have h3 : path <:+ a :: path := ⟨[a], rfl⟩
        exact isInfix_trans (isPre_isInfix h2)
          (isInfix_trans (isSuf_isInfix h3) (mem_words_isInfix htok))
    · rw [if_neg ha] at hmap
      exact Option.noConfusion hmap

theorem mem_extract_file_paths (q tn : Str) :
    ∀ (summaries : List Str) (pd pr : Str),
    (q, tn) ∈ extract_file_paths summaries pd pr →
    ∃ s ∈ summaries, (q, tn) ∈ extractOneSummary s pd pr := by
  intro summaries
  induction summaries with
  | nil =>
    intro pd pr h
    simp [extract_file_paths] at h
  | cons s rest ih =>
    intro pd pr h
    simp only [extract_file_paths, List.mem_append] at h
    rcases h with h | h
    · exact ⟨s, List.mem_cons_self s rest, h⟩
    · obtain ⟨s2, hs2, h2⟩ := ih pd pr h
      exact ⟨s2, List.mem_cons_of_mem s hs2, h2⟩

theorem extractOneSummary_out {summary pd pr q tn : Str}
    (h : (q, tn) ∈ extractOneSummary summary pd pr) :
    ∃ cand : Str, cand <:+: summary ∧ normalize_path cand pd pr = some q := by
  unfold extractOneSummary at h
  cases hidx : summary.findIdx? (fun c => c == '(') with
  | none =>
    simp [hidx] at h
  | some paren_idx =>
    simp only [hidx] at h
    have hargs : (summary.take (summary.length - 1)).drop (paren_idx + 1) <:+: summary :=
      suf_pre_isInfix (drop_isSuffix _ _) (take_isPre _ summary)
    split_ifs at h with h1 h2 h3 h4
    · cases hn : normalize_path ((summary.take (summary.length - 1)).drop (paren_idx + 1))
          pd pr with
      | none => simp [hn] at h
      | some nval =>
        simp only [hn, List.mem_singleton, Prod.mk.injEq] at h
        refine ⟨(summary.take (summary.length - 1)).drop (paren_idx + 1), hargs, ?_⟩
        rw [hn, h.1]
    · cases hn : normalize_path
          (trim (((summary.take (summary.length - 1)).drop (paren_idx + 1)).takeWhile
            (fun c => !(c == ',')))) pd pr with
      | none => simp [hn] at h
      | some nval =>
        simp only [hn, List.mem_singleton, Prod.mk.injEq] at h
        refine ⟨trim (((summary.take (summary.length - 1)).drop (paren_idx + 1)).takeWhile
          (fun c => !(c == ','))), ?_, ?_⟩
        · exact isInfix_trans
            (isInfix_trans (trim_isInfix _) (isPre_isInfix (takeWhile_isPre _ _))) hargs
        · rw [hn, h.1]
    · split at h
      · rename_i pval hp
        split at h
        · rename_i nval hn
          simp only [List.mem_singleton, Prod.mk.injEq] at h
          refine ⟨pval, ?_, ?_⟩
          · exact isInfix_trans (extract_quoted_value_isInfix hp) hargs
          · rw [hn, h.1]
        · simp at h
      · simp at h
    · split at h
      · rename_i cmd hcq
        rw [List.mem_filterMap] at h
        obtain ⟨token, htok, hmap⟩ := h
        cases hn : normalize_path token pd pr with
        | none =>
          rw [hn] at hmap
          exact Option.noConfusion hmap
        | some nval =>
          rw [hn] at hmap
          simp only [Option.map] at hmap
          injection hmap with hmap
          have hq : nval = q := congrArg Prod.fst hmap
          simp only [extract_path_like_tokens, List.mem_filter, List.mem_map] at htok
          obtain ⟨⟨w, hw, hwt⟩, hlook⟩ := htok
          subst hwt
          refine ⟨trimMatches shellQuoteChar w, ?_, ?_⟩
          · exact isInfix_trans
              (isInfix_trans (trimMatches_isInfix _ w) (mem_words_isInfix hw))
              (isInfix_trans (extract_quoted_value_isInfix hcq) hargs)
          · rw [hn, hq]
      · simp at h
    · simp at h

/-- C8 counterexample: the spec says stored file-mention paths are
project-relative (never absolute, never empty).  For the summaries
`Read(/p//b)` and `Read()` with `project_dir = project_root = "/p"`,
`extract_file_paths` yields the path `/b` — absolute, because
`normalize_path` strips the prefix `/p` from `/p//b` and then removes only
one of the two remaining slashes — and the empty path from the empty
argument (a relative path passes through unchanged, even when empty). -/
theorem claim_C8_counterexample :
    extract_file_paths ["Read(/p//b)".toList, "Read()".toList] "/p".toList "/p".toList =
      [("/b".toList, "Read".toList), (([] : Str), "Read".toList)] ∧
      ("/b".toList).head? = some '/' := by
  exact ⟨by decide, rfl⟩

/-- C8 (amended): every `@`-mention path stored by `extract_at_mentions` is
non-empty, and is not absolute provided the turn text contains no `//`;
every path produced by `extract_file_paths` is not absolute provided no
summary contains `//`; and `normalize_path` never turns a non-empty path
into an empty one.  (The original claim, without the no-`//` and
non-empty-input provisos, is refuted by `claim_C8_counterexample`.) -/
theorem claim_C8_file_mention_paths :
    (∀ text pd pr : Str, ∀ q ∈ extract_at_mentions text pd pr, q ≠ []) ∧
    (∀ text pd pr : Str, hasDoubleSlash text = false →
      ∀ q ∈ extract_at_mentions text pd pr, q.head? ≠ some '/') ∧
    (∀ (summaries : List Str) (pd pr q tn : Str),
      (∀ s ∈ summaries, hasDoubleSlash s = false) →
      (q, tn) ∈ extract_file_paths summaries pd pr → q.head? ≠ some '/') ∧
    (∀ p d r q : Str, normalize_path p d r = some q → p ≠ [] → q ≠ []) := by
  refine ⟨?_, ?_, ?_, fun p d r q h hp => normalize_path_ne_nil h hp⟩
  · intro text pd pr q hq
    obtain ⟨cand, hcne, _, hnorm⟩ := mem_extract_at_mentions hq
    exact normalize_path_ne_nil hnorm hcne
  · intro text pd pr hds q hq
    obtain ⟨cand, _, hinf, hnorm⟩ := mem_extract_at_mentions hq
    by_cases hcds : hasDoubleSlash cand = true
    · have h2 := hasDS_of_isInfix hinf hcds
      rw [hds] at h2
      exact absurd h2 (by simp)
    · exact normalize_path_no_slash hnorm (by simpa using hcds)
  · intro summaries pd pr q tn hall hmem
    obtain ⟨s, hs, hone⟩ := mem_extract_file_paths q tn summaries pd pr hmem
    obtain ⟨cand, hinf, hnorm⟩ := extractOneSummary_out hone
    by_cases hcds : hasDoubleSlash cand = true
    · have h2 := hasDS_of_isInfix hinf hcds
      rw [hall s hs] at h2
      exact absurd h2 (by simp)
    · exact normalize_path_no_slash hnorm (by simpa using hcds)

/-- C8 witness: the amended theorem applied to the concrete turn text
`see @/p/a.rs ok` (no `//`), whose extracted mention `a.rs` is indeed
non-empty and relative. -/
theorem claim_C8_file_mention_paths_witness :
    "a.rs".toList ∈ extract_at_mentions "see @/p/a.rs ok".toList "/p".toList "/p".toList ∧
      hasDoubleSlash "see @/p/a.rs ok".toList = false ∧
      "a.rs".toList ≠ [] ∧ ("a.rs".toList).head? ≠ some '/' := by
  refine ⟨by decide, by decide, ?_, ?_⟩
  · exact claim_C8_file_mention_paths.1 "see @/p/a.rs ok".toList "/p".toList "/p".toList
      "a.rs".toList (by decide)
  · exact claim_C8_file_mention_paths.2.1 "see @/p/a.rs ok".toList "/p".toList "/p".toList
      (by decide) "a.rs".toList (by decide)

/-! ### C4: monotonicity of `last_line_index` across ingest invocations -/

theorem parseFrom_mem_bound :
    ∀ (t : Transcript) (idx start : Nat) (m : ParsedMessage),
      m ∈ parseFrom t idx start → start ≤ m.line_index ∧ idx ≤ m.line_index := by
  intro t
  induction t with
  | nil =>
    intro idx start m hm
    simp [parseFrom] at hm
  | cons l rest ih =>
    intro idx start m hm
    cases l with
    | msg d =>
      simp only [parseFrom] at hm
      by_cases hs : start ≤ idx
      · rw [if_pos hs] at hm
        rw [List.mem_cons] at hm
        rcases hm with hm | hm
        · subst hm
          exact ⟨hs, Nat.le_refl idx⟩
        · have h2 := ih (idx + 1) start m hm
          exact ⟨h2.1, by omega⟩
      · rw [if_neg hs] at hm
        have h2 := ih (idx + 1) start m hm
        exact ⟨h2.1, by omega⟩
    | rawOnly =>
      simp only [parseFrom, ite_self] at hm
      have h2 := ih (idx + 1) start m hm
      exact ⟨h2.1, by omega⟩
    | prlink n u r ts =>
      simp only [parseFrom, ite_self] at hm
      have h2 := ih (idx + 1) start m hm
      exact ⟨h2.1, by omega⟩
    | skip =>
      simp only [parseFrom, ite_self] at hm
      have h2 := ih (idx + 1) start m hm
      exact ⟨h2.1, by omega⟩

theorem parseFrom_filter :
    ∀ (t : Transcript) (idx r r' : Nat), r ≤ r' →
      parseFrom t idx r' =
        (parseFrom t idx r).filter (fun m => decide (r' ≤ m.line_index)) := by
  intro t
  induction t with
  | nil =>
    intro idx r r' h
    rfl
  | cons l rest ih =>
    intro idx r r' h
    cases l with
    | msg d =>
      simp only [parseFrom]
      by_cases h1 : r ≤ idx
      · rw [if_pos h1]
        by_cases h2 : r' ≤ idx
        · rw [if_pos h2, List.filter_cons, if_pos (by simp [h2])]
          rw [ih (idx + 1) r r' h]
        · rw [if_neg h2, List.filter_cons, if_neg (by simp [h2])]
          exact ih (idx + 1) r r' h
      · have h2 : ¬ r' ≤ idx := by omega
        rw [if_neg h1, if_neg h2]
        exact ih (idx + 1) r r' h
    | rawOnly =>
      simp only [parseFrom, ite_self]
      exact ih (idx + 1) r r' h
    | prlink n u rp ts =>
      simp only [parseFrom, ite_self]
      exact ih (idx + 1) r r' h
    | skip =>
      simp only [parseFrom, ite_self]
      exact ih (idx + 1) r r' h

theorem parseFrom_pairwise :
    ∀ (t : Transcript) (idx start : Nat),
      List.Pairwise (fun m1 m2 : ParsedMessage => m1.line_index < m2.line_index)
        (parseFrom t idx start) := by
  intro t
  induction t with
  | nil =>
    intro idx start
    simp [parseFrom]
  | cons l rest ih =>
    intro idx start
    cases l with
    | msg d =>
      simp only [parseFrom]
      by_cases hs : start ≤ idx
      · rw [if_pos hs]
        refine List.Pairwise.cons ?_ (ih (idx + 1) start)
        intro m hm
        have hb := (parseFrom_mem_bound rest (idx + 1) start m hm).2
        show idx < m.line_index
        omega
      · rw [if_neg hs]
        exact ih (idx + 1) start
    | rawOnly =>
      simp only [parseFrom, ite_self]
      exact ih (idx + 1) start
    | prlink n u r ts =>
      simp only [parseFrom, ite_self]
      exact ih (idx + 1) start
    | skip =>
      simp only [parseFrom, ite_self]
      exact ih (idx + 1) start

theorem parseFrom_append :
    ∀ (t u : Transcript) (idx start : Nat),
      parseFrom (t ++ u) idx start =
        parseFrom t idx start ++ parseFrom u (idx + t.length) start := by
  intro t
  induction t with
  | nil =>
    intro u idx start
    simp [parseFrom]
  | cons l rest ih =>
    intro u idx start
    cases l with
    | msg d =>
      simp only [List.cons_append, List.append_eq, parseFrom, List.length_cons]
      have he : idx + 1 + rest.length = idx + (rest.length + 1) := by omega
      by_cases hs : start ≤ idx
      · rw [if_pos hs, if_pos hs, ih, List.cons_append, he]
      · rw [if_neg hs, if_neg hs, ih, he]
    | rawOnly =>
      simp only [List.cons_append, List.append_eq, parseFrom, ite_self, List.length_cons]
      have he : idx + 1 + rest.length = idx + (rest.length + 1) := by omega
      rw [ih, he]
    | prlink n u2 r ts =>
      simp only [List.cons_append, List.append_eq, parseFrom, ite_self, List.length_cons]
      have he : idx + 1 + rest.length = idx + (rest.length + 1) := by omega
      rw [ih, he]
    | skip =>
      simp only [List.cons_append, List.append_eq, parseFrom, ite_self, List.length_cons]
      have he : idx + 1 + rest.length = idx + (rest.length + 1) := by omega
      rw [ih, he]

theorem le_foldr_max : ∀ (l : List Nat) (x : Nat), x ∈ l → x ≤ l.foldr max 0 := by
  intro l
  induction l with
  | nil =>
    intro x h
    simp at h
  | cons a rest ih =>
    intro x h
    rw [List.mem_cons] at h
    rw [List.foldr_cons]
    rcases h with h | h
    · subst h
      exact Nat.le_max_left _ _
    · exact Nat.le_trans (ih x h) (Nat.le_max_right _ _)

theorem foldr_max_le : ∀ (l : List Nat) (b : Nat), (∀ x ∈ l, x ≤ b) → l.foldr max 0 ≤ b := by
  intro l
  induction l with
  | nil =>
    intro b _
    exact Nat.zero_le b
  | cons a rest ih =>
    intro b h
    rw [List.foldr_cons]
    exact Nat.max_le.mpr ⟨h a (by simp), ih b (fun x hx => h x (by simp [hx]))⟩

theorem foldr_max_mem : ∀ (l : List Nat), l ≠ [] → l.foldr max 0 ∈ l := by
  intro l
  induction l with
  | nil =>
    intro h
    exact absurd rfl h
  | cons a rest ih =>
    intro _
    rw [List.foldr_cons]
    cases rest with
    | nil => simp
    | cons b rest2 =>
      rcases Nat.le_total (List.foldr max 0 (b :: rest2)) a with h | h
      · rw [Nat.max_eq_left h]
        simp
      · rw [Nat.max_eq_right h]
        exact List.mem_cons_of_mem a (ih (by simp))

theorem natMaxD_eq (l : List Nat) (d : Nat) (h : l ≠ []) : natMaxD l d = l.foldr max 0 := by
  cases l with
  | nil => exact absurd rfl h
  | cons a rest => rfl

theorem maxLine_mono_append (A B : List ParsedMessage) :
    maxLine A ≤ maxLine (A ++ B) := by
  unfold maxLine
  refine foldr_max_le _ _ (fun x hx => le_foldr_max _ x ?_)
  rw [List.map_append, List.mem_append]
  exact Or.inl hx

theorem sessionInv_grows {t t' : Transcript} {s : SessionRow}
    (hg : Grows t t') (hInv : SessionInv t s) : SessionInv t' s := by
  obtain ⟨u, hu⟩ := hg
  subst hu
  intro p hp
  obtain ⟨hne, hle⟩ := hInv p hp
  have hsplit : parseMessages (t ++ u) p =
      parseMessages t p ++ parseFrom u t.length p := by
    unfold parseMessages
    rw [parseFrom_append, Nat.zero_add]
  constructor
  · rw [hsplit]
    intro hcon
    exact hne (List.append_eq_nil.mp hcon).1
  · rw [hsplit]
    exact Nat.le_trans hle (Nat.add_le_add_right (maxLine_mono_append _ _) 1)

theorem collectPairs_mem_bound :
    ∀ (ms : List ParsedMessage),
      List.Pairwise (fun m1 m2 : ParsedMessage => m1.line_index < m2.line_index) ms →
      ∀ u a : ParsedMessage, (u, a) ∈ collectPairs ms →
        u ∈ ms ∧ a ∈ ms ∧ u.line_index < a.line_index := by
  intro ms
  induction ms using collectPairs.induct with
  | case1 =>
    intro _ u a h
    rw [collectPairs] at h
    simp at h
  | case2 m =>
    intro _ u a h
    rw [collectPairs] at h
    simp at h
  | case3 m1 m2 rest hcond ih =>
    intro hp u a h
    rw [collectPairs, if_pos hcond, List.mem_cons] at h
    rcases h with h | h
    · injection h with h1 h2
      subst h1
      subst h2
      refine ⟨by simp, by simp, ?_⟩
      exact (List.pairwise_cons.mp hp).1 _ (by simp)
    · have hrest : List.Pairwise (fun m1 m2 : ParsedMessage =>
          m1.line_index < m2.line_index) rest :=
        hp.sublist ((List.sublist_cons_self m2 rest).trans (List.sublist_cons_self m1 _))
      obtain ⟨hu, ha, hlt⟩ := ih hrest u a h
      exact ⟨by simp [hu], by simp [ha], hlt⟩
  | case4 m1 m2 rest hcond ih =>
    intro hp u a h
    rw [collectPairs, if_neg hcond] at h
    have hrest : List.Pairwise (fun m1 m2 : ParsedMessage =>
        m1.line_index < m2.line_index) (m2 :: rest) := (List.pairwise_cons.mp hp).2
    obtain ⟨hu, ha, hlt⟩ := ih hrest u a h
    exact ⟨by simp [hu], by simp [ha], hlt⟩

theorem mkTurn_line_index (u a : ParsedMessage)
    (x : Option (ParsedMessage × ParsedMessage)) :
    (mkTurn u a x).line_index = u.line_index := by
  rcases x with _ | ⟨nu, na⟩ <;> rfl

theorem buildTurns_line_mem :
    ∀ (pairs : List (ParsedMessage × ParsedMessage)) (turn : Turn),
      turn ∈ buildTurns pairs → ∃ pairm ∈ pairs, turn.line_index = pairm.1.line_index := by
  intro pairs
  induction pairs with
  | nil =>
    intro turn h
    simp [buildTurns] at h
  | cons pairm rest ih =>
    intro turn h
    obtain ⟨u, a⟩ := pairm
    rw [buildTurns, List.mem_cons] at h
    rcases h with h | h
    · subst h
      exact ⟨(u, a), by simp, mkTurn_line_index u a rest.head?⟩
    · obtain ⟨p2, hp2, he⟩ := ih turn h
      exact ⟨p2, by simp [hp2], he⟩

theorem messages_ne_nil_of_turns {ms : List ParsedMessage}
    (h : group_into_turns ms ≠ []) : ms ≠ [] := by
  intro hm
  subst hm
  exact h rfl

theorem turns_line_provenance (t' : Transcript) (rf : Nat) :
    ∀ turn ∈ group_into_turns (parseMessages t' rf),
      ∃ u a : ParsedMessage, u ∈ parseMessages t' rf ∧ a ∈ parseMessages t' rf ∧
        turn.line_index = u.line_index ∧ u.line_index < a.line_index := by
  intro turn hturn
  obtain ⟨pairm, hpair, hline⟩ := buildTurns_line_mem _ turn hturn
  obtain ⟨hu, ha, hlt⟩ := collectPairs_mem_bound _ (parseFrom_pairwise t' 0 rf)
    pairm.1 pairm.2 (by simpa using hpair)
  exact ⟨pairm.1, pairm.2, hu, ha, hline, hlt⟩

theorem ingestTurnLP_fold_le (chunkTurn : Turn → List Str) (B : Nat) :
    ∀ (turns : List Turn) (st : Nat × Option Nat),
      st.1 ≤ B → (∀ turn ∈ turns, turn.line_index + 2 ≤ B) →
      (turns.foldl (ingestTurnLP chunkTurn) st).1 ≤ B := by
  intro turns
  induction turns with
  | nil =>
    intro st h _
    exact h
  | cons turn rest ih =>
    intro st h hall
    rw [List.foldl_cons]
    refine ih _ ?_ (fun tr htr => hall tr (by simp [htr]))
    unfold ingestTurnLP
    by_cases hc : (chunkTurn turn).isEmpty = true
    · rw [if_pos hc]
      exact h
    · rw [if_neg hc]
      exact hall turn (by simp)

theorem ingestTurnLP_fold_prov (chunkTurn : Turn → List Str) :
    ∀ (turns : List Turn) (st : Nat × Option Nat) (q : Nat),
      (turns.foldl (ingestTurnLP chunkTurn) st).2 = some q →
      st.2 = some q ∨ ∃ turn ∈ turns, turn.line_index = q := by
  intro turns
  induction turns with
  | nil =>
    intro st q h
    exact Or.inl h
  | cons turn rest ih =>
    intro st q h
    rw [List.foldl_cons] at h
    rcases ih _ q h with h2 | h2
    · by_cases hc : (chunkTurn turn).isEmpty = true
      · simp [ingestTurnLP, hc] at h2
        exact Or.inl h2
      · simp [ingestTurnLP, hc] at h2
        by_cases hpv : turn.provisional = true
        · simp [hpv] at h2
          exact Or.inr ⟨turn, by simp, h2⟩
        · simp [hpv] at h2
          exact Or.inl h2
    · obtain ⟨tr, htr, he⟩ := h2
      exact Or.inr ⟨tr, by simp [htr], he⟩

theorem ingestTurn_snd (chunkTurn : Turn → List Str) (embed : Str → List ℚ)
    (sid pd pr : Str) (st : Db × Nat × Option Nat) (turn : Turn) :
    (ingestTurn chunkTurn embed sid pd pr st turn).2 = ingestTurnLP chunkTurn st.2 turn := by
  unfold ingestTurn ingestTurnLP
  by_cases hc : (chunkTurn turn).isEmpty = true
  · rw [if_pos hc, if_pos hc]
  · rw [if_neg hc, if_neg hc]

theorem ingest_fold_snd (chunkTurn : Turn → List Str) (embed : Str → List ℚ)
    (sid pd pr : Str) :
    ∀ (turns : List Turn) (st : Db × Nat × Option Nat),
      (turns.foldl (ingestTurn chunkTurn embed sid pd pr) st).2 =
        turns.foldl (ingestTurnLP chunkTurn) st.2 := by
  intro turns
  induction turns with
  | nil =>
    intro st
    rfl
  | cons turn rest ih =>
    intro st
    rw [List.foldl_cons, List.foldl_cons, ih, ingestTurn_snd]

theorem ingest_core (chunkTurn : Turn → List Str) (t' : Transcript) (rf : Nat)
    (hne : parseMessages t' rf ≠ []) :
    max ((group_into_turns (parseMessages t' rf)).foldl (ingestTurnLP chunkTurn)
        (rf, none)).1
      (natMaxD ((parseMessages t' rf).map (fun m => m.line_index)) rf + 1)
      = natMaxD ((parseMessages t' rf).map (fun m => m.line_index)) rf + 1 ∧
    ∀ q, ((group_into_turns (parseMessages t' rf)).foldl (ingestTurnLP chunkTurn)
        (rf, none)).2 = some q →
      parseMessages t' q ≠ [] ∧
      natMaxD ((parseMessages t' rf).map (fun m => m.line_index)) rf
        = maxLine (parseMessages t' q) := by
  have hmapne : (parseMessages t' rf).map (fun m => m.line_index) ≠ [] := by
    intro hcon
    exact hne (List.map_eq_nil_iff.mp hcon)
  have hMD : natMaxD ((parseMessages t' rf).map (fun m => m.line_index)) rf
      = ((parseMessages t' rf).map (fun m => m.line_index)).foldr max 0 :=
    natMaxD_eq _ _ hmapne
  have hmem_le : ∀ m ∈ parseMessages t' rf,
      m.line_index ≤ natMaxD ((parseMessages t' rf).map (fun m => m.line_index)) rf := by
    intro m hm
    rw [hMD]
    exact le_foldr_max _ _ (List.mem_map_of_mem _ hm)
  have hrf_le : rf ≤ natMaxD ((parseMessages t' rf).map (fun m => m.line_index)) rf := by
    obtain ⟨m0, hm0⟩ := List.exists_mem_of_ne_nil _ hne
    exact Nat.le_trans (parseFrom_mem_bound t' 0 rf m0 hm0).1 (hmem_le m0 hm0)
  constructor
  · refine Nat.max_eq_right ?_
    refine ingestTurnLP_fold_le chunkTurn _ _ _
      (Nat.le_trans hrf_le (Nat.le_succ _)) ?_
    intro turn hturn
    obtain ⟨u, a, hu, ha, hline, hlt⟩ := turns_line_provenance t' rf turn hturn
    have h2 := hmem_le a ha
    omega
  · intro q hq
    rcases ingestTurnLP_fold_prov chunkTurn _ _ q hq with h2 | h2
    · exact Option.noConfusion h2
    · obtain ⟨turn, hturn, hlq⟩ := h2
      obtain ⟨u, a, hu, ha, hline, hlt⟩ := turns_line_provenance t' rf turn hturn
      have huq : u.line_index = q := by omega
      have hrfq : rf ≤ q := by
        have hb := (parseFrom_mem_bound t' 0 rf u hu).1
        omega
      have hfilter : parseMessages t' q =
          (parseMessages t' rf).filter (fun m => decide (q ≤ m.line_index)) :=
        parseFrom_filter t' 0 rf q hrfq
      have huF : u ∈ parseMessages t' q := by
        rw [hfilter, List.mem_filter]
        exact ⟨hu, by simp [huq]⟩
      refine ⟨List.ne_nil_of_mem huF, ?_⟩
      have hle1 : maxLine (parseMessages t' q)
          ≤ natMaxD ((parseMessages t' rf).map (fun m => m.line_index)) rf := by
        unfold maxLine
        refine foldr_max_le _ _ ?_
        intro x hx
        rw [List.mem_map] at hx
        obtain ⟨m, hm, hxm⟩ := hx
        rw [hfilter, List.mem_filter] at hm
        subst hxm
        exact hmem_le m hm.1
      have hle2 : natMaxD ((parseMessages t' rf).map (fun m => m.line_index)) rf
          ≤ maxLine (parseMessages t' q) := by
        have hmm := foldr_max_mem _ hmapne
        rw [← hMD] at hmm
        rw [List.mem_map] at hmm
        obtain ⟨mstar, hmstar, hml⟩ := hmm
        have hum := hmem_le u hu
        have hqm : q ≤ mstar.line_index := by omega
        have hmF : mstar ∈ parseMessages t' q := by
          rw [hfilter, List.mem_filter]
          exact ⟨hmstar, by simp [hqm]⟩
        rw [← hml]
        unfold maxLine
        exact le_foldr_max _ _ (List.mem_map_of_mem _ hmF)
      omega

theorem get_session_eq_of_sessions {db1 db2 : Db} (h : db1.sessions = db2.sessions)
    (sid : Str) : get_session db1 sid = get_session db2 sid := by
  unfold get_session
  rw [h]

theorem get_session_turns_fold (chunkTurn : Turn → List Str) (embed : Str → List ℚ)
    (sid pd pr : Str) (turns : List Turn) (st : Db × Nat × Option Nat) (sid2 : Str) :
    get_session (turns.foldl (ingestTurn chunkTurn embed sid pd pr) st).1 sid2 =
      get_session st.1 sid2 :=
  get_session_eq_of_sessions (sessions_turns_fold chunkTurn embed sid pd pr turns st) sid2

theorem get_session_pr_fold (sid : Str) (l : List (Nat × Str × Str × Str)) (db : Db)
    (sid2 : Str) :
    get_session (l.foldl (fun db q => insert_pr_link db sid q.1 q.2.1 q.2.2.1 q.2.2.2) db)
      sid2 = get_session db sid2 :=
  get_session_eq_of_sessions (sessions_pr_fold sid l db) sid2

theorem get_session_delete_mentions (db : Db) (sid : Str) (l : Nat) (sid2 : Str) :
    get_session (delete_file_mentions_at db sid l) sid2 = get_session db sid2 := rfl

theorem get_session_delete_memories (db : Db) (sid : Str) (l : Nat) (sid2 : Str) :
    get_session (delete_memories_at db sid l) sid2 = get_session db sid2 := rfl

theorem get_session_upsert_existing {db : Db} {sid : Str} {old : SessionRow}
    (tp2 pd2 : Str) (ll : Nat) (pv lc : Option Nat)
    (h : get_session db sid = some old) :
    get_session (upsert_session db ⟨sid, tp2, pd2, ll, pv, lc⟩) sid =
      some { old with transcript_path := tp2,
                      last_line_index := ll,
                      provisional_turn_start := pv,
                      last_compact_line_index :=
                        match lc with
                        | some v => some v
                        | none => old.last_compact_line_index } := by
  unfold get_session at h
  have hp := List.find?_some h
  have hmem := List.mem_of_find?_eq_some h
  unfold upsert_session
  rw [if_pos (by rw [List.any_eq_true]; exact ⟨old, hmem, hp⟩)]
  unfold get_session
  exact find?_map_key_update (f := fun r =>
    { r with transcript_path := tp2,
             last_line_index := ll,
             provisional_turn_start := pv,
             last_compact_line_index :=
               match lc with
               | some v => some v
               | none => r.last_compact_line_index }) (fun r => rfl) h

theorem get_session_upsert_over (chunkTurn : Turn → List Str) (embed : Str → List ℚ)
    (sid tp2 pd pr : Str) (turns : List Turn) (db0 : Db) (rf : Nat) (ll : Nat)
    (pv lc : Option Nat) {old : SessionRow} (h : get_session db0 sid = some old) :
    get_session (upsert_session
        ((turns.foldl (ingestTurn chunkTurn embed sid pd pr)
          (db0, rf, (none : Option Nat))).1)
        ⟨sid, tp2, pd, ll, pv, lc⟩) sid =
      some { old with transcript_path := tp2,
                      last_line_index := ll,
                      provisional_turn_start := pv,
                      last_compact_line_index :=
                        match lc with
                        | some v => some v
                        | none => old.last_compact_line_index } := by
  have hget : get_session ((turns.foldl (ingestTurn chunkTurn embed sid pd pr)
      (db0, rf, (none : Option Nat))).1) sid = some old := by
    rw [get_session_turns_fold]
    exact h
  exact get_session_upsert_existing tp2 pd ll pv lc hget

theorem rf_le_maxMsg (t' : Transcript) (rf : Nat) (hne : parseMessages t' rf ≠ []) :
    rf ≤ natMaxD ((parseMessages t' rf).map (fun m => m.line_index)) rf := by
  obtain ⟨m0, hm0⟩ := List.exists_mem_of_ne_nil _ hne
  have h1 := (parseFrom_mem_bound t' 0 rf m0 hm0).1
  have h2 : m0.line_index
      ≤ natMaxD ((parseMessages t' rf).map (fun m => m.line_index)) rf := by
    rw [natMaxD_eq _ _ (fun hcon => hne (List.map_eq_nil_iff.mp hcon))]
    exact le_foldr_max _ _ (List.mem_map_of_mem _ hm0)
  omega

theorem run_ingest_step (chunkTurn : Turn → List Str) (embed : Str → List ℚ)
    (db : Db) (sid tp pd pr : Str) (t' : Transcript)
    (hInv : ∀ row, get_session db sid = some row → SessionInv t' row) :
    (∀ row row2, get_session db sid = some row →
        get_session (run_ingest chunkTurn embed db sid tp pd pr t') sid = some row2 →
        row.last_line_index ≤ row2.last_line_index) ∧
    (∀ row2, get_session (run_ingest chunkTurn embed db sid tp pd pr t') sid = some row2 →
        SessionInv t' row2) := by
  cases hs : get_session db sid with
  | none =>
    by_cases hempty : ((parseMessages t' 0).isEmpty && (parsePrFrom t' 0 0).isEmpty) = true
    · have hres : run_ingest chunkTurn embed db sid tp pd pr t' = db := by
        unfold run_ingest
        rw [hs]
        simp only [Option.getD_none]
        rw [if_pos hempty]
      refine ⟨?_, ?_⟩
      · intro row row2 hrow _
        exact Option.noConfusion hrow
      · intro row2 hrow2
        rw [hres, hs] at hrow2
        exact Option.noConfusion hrow2
    · by_cases hturns : (group_into_turns (parseMessages t' 0)).isEmpty = true
      · have hres : get_session (run_ingest chunkTurn embed db sid tp pd pr t') sid
            = some ⟨sid, tp, pd, 0, none, none⟩ := by
          unfold run_ingest
          rw [hs]
          simp only [Option.getD_none, Option.isNone_none, if_true]
          rw [if_neg hempty, if_pos hturns]
          rw [get_session_pr_fold]
          exact get_session_upsert_fresh (s := ⟨sid, tp, pd, 0, none, none⟩) hs
        refine ⟨?_, ?_⟩
        · intro row row2 hrow _
          exact Option.noConfusion hrow
        · intro row2 hrow2
          rw [hres] at hrow2
          injection hrow2 with hrow2
          subst hrow2
          intro p hp
          exact Option.noConfusion hp
      · have hturns2 : group_into_turns (parseMessages t' 0) ≠ [] := by
          intro hcon
          exact hturns (by rw [hcon]; rfl)
        have hmsgs := messages_ne_nil_of_turns hturns2
        have hcore := ingest_core chunkTurn t' 0 hmsgs
        have hDB1 : get_session ((parsePrFrom t' 0 0).foldl
            (fun db q => insert_pr_link db sid q.1 q.2.1 q.2.2.1 q.2.2.2)
            (upsert_session db ⟨sid, tp, pd, 0, none, none⟩)) sid
            = some ⟨sid, tp, pd, 0, none, none⟩ := by
          rw [get_session_pr_fold]
          exact get_session_upsert_fresh (s := ⟨sid, tp, pd, 0, none, none⟩) hs
        refine ⟨?_, ?_⟩
        · intro row row2 hrow _
          exact Option.noConfusion hrow
        · intro row2 hrow2
          unfold run_ingest at hrow2
          rw [hs] at hrow2
          simp only [Option.getD_none, Option.isNone_none, if_true] at hrow2
          rw [if_neg hempty, if_neg hturns] at hrow2
          rw [get_session_upsert_over chunkTurn embed sid tp pd pr _ _ _ _ _ _ hDB1]
            at hrow2
          injection hrow2 with hrow2
          subst hrow2
          intro p hp
          simp only [ingest_fold_snd] at hp
          obtain ⟨hne2, heq⟩ := hcore.2 p hp
          refine ⟨hne2, ?_⟩
          simp only [ingest_fold_snd]
          rw [hcore.1, heq]
  | some row =>
    have hrowInv := hInv row hs
    cases hpv : row.provisional_turn_start with
    | none =>
      by_cases hempty : ((parseMessages t' row.last_line_index).isEmpty
          && (parsePrFrom t' 0 row.last_line_index).isEmpty) = true
      · have hres : run_ingest chunkTurn embed db sid tp pd pr t' = db := by
          unfold run_ingest
          rw [hs]
          simp only
          rw [hpv]
          simp only [Option.getD_none]
          rw [if_pos hempty]
        refine ⟨?_, ?_⟩
        · intro row0 row2 hrow0 hrow2
          injection hrow0 with hrow0
          subst hrow0
          rw [hres, hs] at hrow2
          injection hrow2 with hrow2
          subst hrow2
          exact Nat.le_refl _
        · intro row2 hrow2
          rw [hres, hs] at hrow2
          injection hrow2 with hrow2
          subst hrow2
          exact hrowInv
      · by_cases hturns :
            (group_into_turns (parseMessages t' row.last_line_index)).isEmpty = true
        · have hres : get_session (run_ingest chunkTurn embed db sid tp pd pr t') sid
              = some row := by
            unfold run_ingest
            rw [hs]
            simp only
            rw [hpv]
            simp only [Option.getD_none, Option.isNone_some, Bool.false_eq_true, if_false]
            rw [if_neg hempty, if_pos hturns]
            rw [get_session_pr_fold]
            exact hs
          refine ⟨?_, ?_⟩
          · intro row0 row2 hrow0 hrow2
            injection hrow0 with hrow0
            subst hrow0
            rw [hres] at hrow2
            injection hrow2 with hrow2
            subst hrow2
            exact Nat.le_refl _
          · intro row2 hrow2
            rw [hres] at hrow2
            injection hrow2 with hrow2
            subst hrow2
            exact hrowInv
        · have hturns2 : group_into_turns (parseMessages t' row.last_line_index) ≠ [] := by
            intro hcon
            exact hturns (by rw [hcon]; rfl)
          have hmsgs := messages_ne_nil_of_turns hturns2
          have hcore := ingest_core chunkTurn t' row.last_line_index hmsgs
          have hDB1 : get_session ((parsePrFrom t' 0 row.last_line_index).foldl
              (fun db q => insert_pr_link db sid q.1 q.2.1 q.2.2.1 q.2.2.2) db) sid
              = some row := by
            rw [get_session_pr_fold]
            exact hs
          refine ⟨?_, ?_⟩
          · intro row0 row2 hrow0 hrow2
            injection hrow0 with hrow0
            subst hrow0
            unfold run_ingest at hrow2
            rw [hs] at hrow2
            simp only at hrow2
            rw [hpv] at hrow2
            simp only [Option.getD_none, Option.isNone_some, Bool.false_eq_true,
              if_false] at hrow2
            rw [if_neg hempty, if_neg hturns] at hrow2
            rw [get_session_upsert_over chunkTurn embed sid tp pd pr _ _ _ _ _ _ hDB1]
              at hrow2
            injection hrow2 with hrow2
            subst hrow2
            simp only [ingest_fold_snd]
            have hrf := rf_le_maxMsg t' row.last_line_index hmsgs
            exact Nat.le_trans (Nat.le_trans hrf (Nat.le_succ _)) (Nat.le_max_right _ _)
          · intro row2 hrow2
            unfold run_ingest at hrow2
            rw [hs] at hrow2
            simp only at hrow2
            rw [hpv] at hrow2
            simp only [Option.getD_none, Option.isNone_some, Bool.false_eq_true,
              if_false] at hrow2
            rw [if_neg hempty, if_neg hturns] at hrow2
            rw [get_session_upsert_over chunkTurn embed sid tp pd pr _ _ _ _ _ _ hDB1]
              at hrow2
            injection hrow2 with hrow2
            subst hrow2
            intro p hp
            simp only [ingest_fold_snd] at hp
            obtain ⟨hne2, heq⟩ := hcore.2 p hp
            refine ⟨hne2, ?_⟩
            simp only [ingest_fold_snd]
            rw [hcore.1, heq]
    | some p =>
      by_cases hempty : ((parseMessages t' p).isEmpty && (parsePrFrom t' 0 p).isEmpty) = true
      · have hres : run_ingest chunkTurn embed db sid tp pd pr t' = db := by
          unfold run_ingest
          rw [hs]
          simp only
          rw [hpv]
          simp only [Option.getD_some]
          rw [if_pos hempty]
        refine ⟨?_, ?_⟩
        · intro row0 row2 hrow0 hrow2
          injection hrow0 with hrow0
          subst hrow0
          rw [hres, hs] at hrow2
          injection hrow2 with hrow2
          subst hrow2
          exact Nat.le_refl _
        · intro row2 hrow2
          rw [hres, hs] at hrow2
          injection hrow2 with hrow2
          subst hrow2
          exact hrowInv
      · by_cases hturns : (group_into_turns (parseMessages t' p)).isEmpty = true
        · have hres : get_session (run_ingest chunkTurn embed db sid tp pd pr t') sid
              = some row := by
            unfold run_ingest
            rw [hs]
            simp only
            rw [hpv]
            simp only [Option.getD_some, Option.isNone_some, Bool.false_eq_true, if_false]
            rw [if_neg hempty, if_pos hturns]
            rw [get_session_pr_fold]
            exact hs
          refine ⟨?_, ?_⟩
          · intro row0 row2 hrow0 hrow2
            injection hrow0 with hrow0
            subst hrow0
            rw [hres] at hrow2
            injection hrow2 with hrow2
            subst hrow2
            exact Nat.le_refl _
          · intro row2 hrow2
            rw [hres] at hrow2
            injection hrow2 with hrow2
            subst hrow2
            exact hrowInv
        · have hturns2 : group_into_turns (parseMessages t' p) ≠ [] := by
            intro hcon
            exact hturns (by rw [hcon]; rfl)
          have hmsgs := messages_ne_nil_of_turns hturns2
          have hcore := ingest_core chunkTurn t' p hmsgs
          have hDB2 : get_session (delete_file_mentions_at (delete_memories_at
              ((parsePrFrom t' 0 p).foldl
                (fun db q => insert_pr_link db sid q.1 q.2.1 q.2.2.1 q.2.2.2) db)
              sid p) sid p) sid = some row := by
            rw [get_session_delete_mentions, get_session_delete_memories,
              get_session_pr_fold]
            exact hs
          refine ⟨?_, ?_⟩
          · intro row0 row2 hrow0 hrow2
            injection hrow0 with hrow0
            subst hrow0
            unfold run_ingest at hrow2
            rw [hs] at hrow2
            simp only at hrow2
            rw [hpv] at hrow2
            simp only [Option.getD_some, Option.isNone_some, Bool.false_eq_true,
              if_false] at hrow2
            rw [if_neg hempty, if_neg hturns] at hrow2
            rw [get_session_upsert_over chunkTurn embed sid tp pd pr _ _ _ _ _ _ hDB2]
              at hrow2
            injection hrow2 with hrow2
            subst hrow2
            simp only [ingest_fold_snd]
            obtain ⟨hne3, hle3⟩ := hrowInv p hpv
            have hMM : natMaxD ((parseMessages t' p).map (fun m => m.line_index)) p
                = maxLine (parseMessages t' p) := by
              rw [natMaxD_eq _ _ (fun hcon => hne3 (List.map_eq_nil_iff.mp hcon))]
              rfl
            have hle4 : row.last_line_index
                ≤ natMaxD ((parseMessages t' p).map (fun m => m.line_index)) p + 1 := by
              rw [hMM]
              exact hle3
            exact Nat.le_trans hle4 (Nat.le_max_right _ _)
          · intro row2 hrow2
            unfold run_ingest at hrow2
            rw [hs] at hrow2
            simp only at hrow2
            rw [hpv] at hrow2
            simp only [Option.getD_some, Option.isNone_some, Bool.false_eq_true,
              if_false] at hrow2
            rw [if_neg hempty, if_neg hturns] at hrow2
            rw [get_session_upsert_over chunkTurn embed sid tp pd pr _ _ _ _ _ _ hDB2]
              at hrow2
            injection hrow2 with hrow2
            subst hrow2
            intro pq hpq
            simp only [ingest_fold_snd] at hpq
            obtain ⟨hne2, heq⟩ := hcore.2 pq hpq
            refine ⟨hne2, ?_⟩
            simp only [ingest_fold_snd]
            rw [hcore.1, heq]

theorem run_ingest_seq_snoc (chunkTurn : Turn → List Str) (embed : Str → List ℚ)
    (sid tp pd pr : Str) (ts : List Transcript) (t : Transcript) :
    run_ingest_seq chunkTurn embed sid tp pd pr (ts ++ [t]) =
      run_ingest chunkTurn embed (run_ingest_seq chunkTurn embed sid tp pd pr ts)
        sid tp pd pr t := by
  unfold run_ingest_seq
  rw [List.foldl_append]
  rfl

theorem run_ingest_seq_inv (chunkTurn : Turn → List Str) (embed : Str → List ℚ)
    (sid tp pd pr : Str) :
    ∀ (ts : List Transcript) (t' : Transcript),
      List.Chain' Grows (ts ++ [t']) →
      ∀ row, get_session (run_ingest_seq chunkTurn embed sid tp pd pr ts) sid = some row →
        SessionInv t' row := by
  intro ts
  induction ts using List.reverseRecOn with
  | nil =>
    intro t' _ row hrow
    exact Option.noConfusion hrow
  | append_singleton ts0 t ih =>
    intro t' hchain row hrow
    obtain ⟨hc1, hc2, hc3⟩ := List.chain'_append.mp hchain
    have hgrow : Grows t t' := by
      refine hc3 t ?_ t' ?_
      · rw [List.getLast?_concat]
        exact Option.mem_def.mpr rfl
      · exact Option.mem_def.mpr rfl
    rw [run_ingest_seq_snoc] at hrow
    have hInv0 : ∀ r0, get_session (run_ingest_seq chunkTurn embed sid tp pd pr ts0) sid
        = some r0 → SessionInv t r0 := fun r0 h0 => ih t hc1 r0 h0
    have hstep := run_ingest_step chunkTurn embed _ sid tp pd pr t hInv0
    exact sessionInv_grows hgrow (hstep.2 row hrow)

/-- C4: across any chained sequence of `run_ingest` invocations for one
session over an append-only (monotonically growing) transcript, the stored
`last_line_index` never decreases: if the session row holds `row` after the
previous invocations and `row2` after one more invocation on a grown
transcript, then `row.last_line_index ≤ row2.last_line_index`. -/
theorem claim_C4_last_line_index_monotone (chunkTurn : Turn → List Str)
    (embed : Str → List ℚ) (sid tp pd pr : Str) (ts : List Transcript)
    (t' : Transcript) (hchain : List.Chain' Grows (ts ++ [t']))
    (row row2 : SessionRow)
    (hrow : get_session (run_ingest_seq chunkTurn embed sid tp pd pr ts) sid = some row)
    (hrow2 : get_session (run_ingest chunkTurn embed
        (run_ingest_seq chunkTurn embed sid tp pd pr ts) sid tp pd pr t') sid
        = some row2) :
    row.last_line_index ≤ row2.last_line_index := by
  have hInv0 : ∀ r0, get_session (run_ingest_seq chunkTurn embed sid tp pd pr ts) sid
      = some r0 → SessionInv t' r0 :=
    fun r0 h0 => run_ingest_seq_inv chunkTurn embed sid tp pd pr ts t' hchain r0 h0
  exact (run_ingest_step chunkTurn embed _ sid tp pd pr t' hInv0).1 row row2 hrow hrow2

/-- C4 witness: ingesting a two-line transcript and then its four-line
append-only extension moves the stored `last_line_index` from 2 to 4. -/
theorem claim_C4_last_line_index_monotone_witness :
    (⟨"s1".toList, "tp".toList, "/p".toList, 2, some 0, none⟩
        : SessionRow).last_line_index ≤
      (⟨"s1".toList, "tp".toList, "/p".toList, 4, some 2, none⟩
        : SessionRow).last_line_index :=
  claim_C4_last_line_index_monotone (fun t => [t.text]) (fun _ => [1])
    "s1".toList "tp".toList "/p".toList "/p".toList
    [[LineKind.msg ⟨"Hi".toList, MessageRole.User, false⟩,
      LineKind.msg ⟨"Hello".toList, MessageRole.Assistant [], false⟩]]
    [LineKind.msg ⟨"Hi".toList, MessageRole.User, false⟩,
     LineKind.msg ⟨"Hello".toList, MessageRole.Assistant [], false⟩,
     LineKind.msg ⟨"More".toList, MessageRole.User, false⟩,
     LineKind.msg ⟨"Sure".toList, MessageRole.Assistant [], false⟩]
    (List.chain'_cons.mpr
      ⟨⟨[LineKind.msg ⟨"More".toList, MessageRole.User, false⟩,
         LineKind.msg ⟨"Sure".toList, MessageRole.Assistant [], false⟩], by decide⟩,
        List.chain'_singleton _⟩)
    ⟨"s1".toList, "tp".toList, "/p".toList, 2, some 0, none⟩
    ⟨"s1".toList, "tp".toList, "/p".toList, 4, some 2, none⟩
    (by decide) (by decide)

end Mementor
